import Mathlib

/-!
Verification model of the `arken` append-only persistence library.

The development shallowly embeds the Rust sources:

* `Arken` — the byte-level codec (`src/lib.rs`, `src/unsigned.rs`,
  `src/signed.rs`), the marker-trailer reverse scan (`src/reader.rs`,
  `src/writer.rs`) and the CRC-32 checksum.
* `LSM` — the record-level model of the Log-Structured-Merge map
  (`src/lsm.rs`).
* `HAMT` — the record-level model of the hash-trie map (`src/hash_trie.rs`).
* `Trigram` — the trigram index over the LSM map (`src/trigram.rs`).

Bytes are modelled as natural numbers below 256, machine integers as
`Nat`/`Int` reduced modulo `2 ^ width` exactly where the machine arithmetic
wraps or truncates.
-/

namespace Arken

/-- `Endian` from `src/lib.rs` (`Big = 0`, `Little = 1`, `Native = 2`). -/
inductive Endian where
  | big
  | little
  | native
deriving DecidableEq, Repr

/-- The numeric discriminant of an `Endian` value (its `repr(u8)` value). -/
def Endian.code : Endian → Nat
  | .big => 0
  | .little => 1
  | .native => 2

/-- `Endian::try_from(u8)` derived by `TryFromPrimitive` in `src/lib.rs`. -/
def Endian.tryFrom (value : Nat) : Option Endian :=
  if value = 0 then some .big
  else if value = 1 then some .little
  else if value = 2 then some .native
  else none

/-- `Config` from `src/lib.rs`: width policy and endian of a file. -/
structure Config where
  fixed : Bool
  endian : Endian
deriving DecidableEq, Repr

/-- The error kinds of `src/lib.rs` that the codec itself can produce. -/
inductive Err where
  | incomplete
  | invalidHeader
  | overflow
deriving DecidableEq, Repr

/-- Little-endian byte list of the low `n` bytes of `v`
(the behaviour of `to_le_bytes` on an `n`-byte integer). -/
def leBytes : Nat → Nat → List Nat
  | 0, _ => []
  | n + 1, v => v % 256 :: leBytes n (v / 256)

/-- Reassemble a little-endian byte list into a natural number
(the behaviour of `from_le_bytes`). -/
def ofLeBytes : List Nat → Nat
  | [] => 0
  | b :: bs => b + 256 * ofLeBytes bs

/-- `to_be_bytes` / `to_le_bytes` / `to_ne_bytes` selected by the config's
endian, as in the `fixed` branch of `put_bytes` in `src/unsigned.rs`.
The model assumes a little-endian target for `Native`. -/
def natBytes (endian : Endian) (n v : Nat) : List Nat :=
  match endian with
  | .big => (leBytes n v).reverse
  | .little => leBytes n v
  | .native => leBytes n v

/-- Reassembly matching `natBytes`: `from_be_bytes` / `from_le_bytes` /
`from_ne_bytes` in the `fixed` branch of `from_slice` in `src/unsigned.rs`. -/
def natOfBytes (endian : Endian) (bs : List Nat) : Nat :=
  match endian with
  | .big => ofLeBytes bs.reverse
  | .little => ofLeBytes bs
  | .native => ofLeBytes bs

/-- The LEB128 loop of the variable branch of `put_bytes` in
`src/unsigned.rs`, with a structural fuel so the definition stays
kernel-reducible: emit 7-bit groups low-first, high bit marking
continuation.  The loop divides the value by 128 each round, so any
`fuel ≥ v` is ample. -/
def putUVarF : Nat → Nat → List Nat
  | 0, v => [v]
  | fuel + 1, v =>
    if v < 0x80 then [v]
    else (v % 0x80 + 0x80) :: putUVarF fuel (v / 0x80)

/-- `put_bytes` of a variable-width unsigned integer. -/
def putUVar (v : Nat) : List Nat :=
  putUVarF v v

/-- The LEB128 decode loop of `from_slice` in `src/unsigned.rs` for a
`w`-bit unsigned integer, carrying the current shift and accumulator.
Bytes are `u8` values, so `byte & 0x7f` is `b % 0x80` and
`byte & 0x80 == 0` is `b < 0x80`.  The shifted group
`(next & 0x7f) << shift` is computed in the `w`-bit type, hence the
reduction modulo `2 ^ w`; the addition itself cannot wrap because the
groups occupy disjoint bit ranges. -/
def decodeUVar (w : Nat) : List Nat → Nat → Nat → Except Err (Nat × List Nat)
  | [], _, _ => .error .incomplete
  | b :: rest, shift, acc =>
    let acc := acc + (b % 0x80) * 2 ^ shift % 2 ^ w
    if b < 0x80 then .ok (acc, rest)
    else
      let shift := shift + 7
      if w < shift then .error .overflow
      else decodeUVar w rest shift acc

/-- `put_bytes` for an `n`-byte unsigned integer (`impl_unsigned_primitive`,
`src/unsigned.rs` lines 73–94). -/
def putUnsigned (cfg : Config) (n v : Nat) : List Nat :=
  if cfg.fixed then natBytes cfg.endian n v else putUVar v

/-- `from_slice` for an `n`-byte unsigned integer (`impl_unsigned_primitive`,
`src/unsigned.rs` lines 28–71). -/
def unsignedFromSlice (cfg : Config) (n : Nat) (bs : List Nat) :
    Except Err (Nat × List Nat) :=
  if cfg.fixed then
    if bs.length < n then .error .incomplete
    else .ok (natOfBytes cfg.endian (bs.take n), bs.drop n)
  else decodeUVar (8 * n) bs 0 0

/-- Interpret `v : Int` as a `w`-bit two's-complement bit pattern
(the effect of `as unsigned` on a `w`-bit signed value). -/
def toUnsigned (w : Nat) (v : Int) : Nat :=
  (v % ((2 : Int) ^ w)).toNat

/-- Reinterpret a `w`-bit pattern as a signed value
(the effect of `as signed` on a `w`-bit unsigned value). -/
def ofUnsigned (w : Nat) (u : Nat) : Int :=
  if u < 2 ^ (w - 1) then (u : Int) else (u : Int) - 2 ^ w

/-- The zig-zag mapping `((value << 1) ^ (value >> (w - 1))) as unsigned`
of `put_bytes` in `src/signed.rs`: `value << 1` wraps to `2 * v mod 2 ^ w`
and the arithmetic shift `value >> (w - 1)` is `-1` for negative `v` and
`0` otherwise, so the XOR happens between the two `w`-bit patterns. -/
def zigzag (w : Nat) (v : Int) : Nat :=
  toUnsigned w (2 * v) ^^^ toUnsigned w (if v < 0 then -1 else 0)

/-- The inverse mapping `((value >> 1) as signed) ^ (-((value & 1) as signed))`
of `from_slice` in `src/signed.rs`.  For `u < 2 ^ w` the logical shift
`u >> 1` has a clear top bit, so `as signed` keeps it non-negative; XOR
with `0` is the identity and XOR with `-1` is the two's-complement
bitwise complement `x ↦ -x - 1`. -/
def unzigzag (u : Nat) : Int :=
  if u % 2 = 0 then ((u / 2 : Nat) : Int) else -((u / 2 : Nat) : Int) - 1

/-- `put_bytes` for an `n`-byte signed integer (`impl_signed_primitive`,
`src/signed.rs` lines 73–95). -/
def putSigned (cfg : Config) (n : Nat) (v : Int) : List Nat :=
  if cfg.fixed then natBytes cfg.endian n (toUnsigned (8 * n) v)
  else putUVar (zigzag (8 * n) v)

/-- `from_slice` for an `n`-byte signed integer (`impl_signed_primitive`,
`src/signed.rs` lines 28–71). -/
def signedFromSlice (cfg : Config) (n : Nat) (bs : List Nat) :
    Except Err (Int × List Nat) :=
  if cfg.fixed then
    if bs.length < n then .error .incomplete
    else .ok (ofUnsigned (8 * n) (natOfBytes cfg.endian (bs.take n)), bs.drop n)
  else do
    let (u, rest) ← decodeUVar (8 * n) bs 0 0
    return (unzigzag u, rest)

/-- The mathematical value denoted by a LEB128 byte sequence: 7-bit groups
assembled low-first, stopping at the first byte without the continuation
bit.  Used to state what an encoding *means*, independently of any width. -/
def lebDenote : List Nat → Nat
  | [] => 0
  | b :: bs => if b < 0x80 then b else b % 0x80 + 0x80 * lebDenote bs

end Arken

namespace Arken

/-- `Config::put_bytes` (`src/lib.rs` lines 111–118): the bytes `'A' 'R' 'K'`
followed by `endian as u8 | (fixed as u8) << 7`. -/
def configPutBytes (c : Config) : List Nat :=
  [65, 82, 75, c.endian.code ||| (if c.fixed then 1 else 0) <<< 7]

/-- `Config::from_slice` (`src/lib.rs` lines 93–109): check the `ARK` magic,
run `Endian::try_from` on the whole flag byte, and read the width policy from
bit 7 (`(value >> 7) & 1`). -/
def configFromSlice (bs : List Nat) : Except Err (Config × List Nat) :=
  if bs.length < 4 then .error .invalidHeader
  else if bs.take 3 ≠ [65, 82, 75] then .error .invalidHeader
  else
    let value := bs.getD 3 0
    let rest := bs.drop 4
    match Endian.tryFrom value with
    | none => .error .invalidHeader
    | some endian => .ok (⟨value >>> 7 &&& 1 = 1, endian⟩, rest)

/-- UTF-8 validity of a byte sequence (the success condition of
`std::str::from_utf8`). -/
def utf8Valid : List Nat → Bool
  | [] => true
  | b :: bs =>
    if b < 0x80 then utf8Valid bs
    else if 0xC2 ≤ b ∧ b ≤ 0xDF then
      match bs with
      | c1 :: rest => (0x80 ≤ c1 && c1 ≤ 0xBF) && utf8Valid rest
      | _ => false
    else if b = 0xE0 then
      match bs with
      | c1 :: c2 :: rest =>
        (0xA0 ≤ c1 && c1 ≤ 0xBF) && (0x80 ≤ c2 && c2 ≤ 0xBF) && utf8Valid rest
      | _ => false
    else if (0xE1 ≤ b ∧ b ≤ 0xEC) ∨ b = 0xEE ∨ b = 0xEF then
      match bs with
      | c1 :: c2 :: rest =>
        (0x80 ≤ c1 && c1 ≤ 0xBF) && (0x80 ≤ c2 && c2 ≤ 0xBF) && utf8Valid rest
      | _ => false
    else if b = 0xED then
      match bs with
      | c1 :: c2 :: rest =>
        (0x80 ≤ c1 && c1 ≤ 0x9F) && (0x80 ≤ c2 && c2 ≤ 0xBF) && utf8Valid rest
      | _ => false
    else if b = 0xF0 then
      match bs with
      | c1 :: c2 :: c3 :: rest =>
        (0x90 ≤ c1 && c1 ≤ 0xBF) && (0x80 ≤ c2 && c2 ≤ 0xBF) &&
          (0x80 ≤ c3 && c3 ≤ 0xBF) && utf8Valid rest
      | _ => false
    else if 0xF1 ≤ b ∧ b ≤ 0xF3 then
      match bs with
      | c1 :: c2 :: c3 :: rest =>
        (0x80 ≤ c1 && c1 ≤ 0xBF) && (0x80 ≤ c2 && c2 ≤ 0xBF) &&
          (0x80 ≤ c3 && c3 ≤ 0xBF) && utf8Valid rest
      | _ => false
    else if b = 0xF4 then
      match bs with
      | c1 :: c2 :: c3 :: rest =>
        (0x80 ≤ c1 && c1 ≤ 0x8F) && (0x80 ≤ c2 && c2 ≤ 0xBF) &&
          (0x80 ≤ c3 && c3 ≤ 0xBF) && utf8Valid rest
      | _ => false
    else false

/-- `Cow<str>::put_bytes` (`src/lib.rs` lines 207–212): the raw bytes
followed by a NUL terminator. -/
def strPutBytes (s : List Nat) : List Nat :=
  s ++ [0]

/-- `Cow<str>::from_slice` (`src/lib.rs` lines 196–205): scan to the first
zero byte (`Incomplete` when there is none), validate UTF-8
(`unwrap_or_default` replaces invalid input by the empty string), and
return the remainder after the terminator. -/
def strFromSlice (bs : List Nat) : Except Err (List Nat × List Nat) :=
  match bs.findIdx? (· = 0) with
  | none => .error .incomplete
  | some n =>
    let value := bs.take n
    .ok (if utf8Valid value then value else [], bs.drop (n + 1))

/-- One step of the bitwise CRC-32 (IEEE, reflected polynomial `0xEDB88320`):
XOR the byte into the low bits, then shift out eight bits. -/
def crc32Update (crc b : Nat) : Nat :=
  (List.range 8).foldl
    (fun c _ => if c % 2 = 1 then (c / 2) ^^^ 0xEDB88320 else c / 2)
    (crc ^^^ b)

/-- `crc32fast::hash`: CRC-32 with initial value `0xFFFFFFFF` and final XOR
`0xFFFFFFFF`, as specified for the record trailer checksum. -/
def crc32 (bs : List Nat) : Nat :=
  (bs.foldl crc32Update 0xFFFFFFFF) ^^^ 0xFFFFFFFF

/-- Does `needle` occur in `hay` starting at position `i`? -/
def matchesAt (hay needle : List Nat) (i : Nat) : Bool :=
  (hay.drop i).take needle.length == needle

/-- Scan downwards from position `i` for the last match. -/
def rfindGo (hay needle : List Nat) : Nat → Option Nat
  | 0 => if matchesAt hay needle 0 then some 0 else none
  | i + 1 =>
    if matchesAt hay needle (i + 1) then some (i + 1)
    else rfindGo hay needle i

/-- `FinderRev::rfind`: the start of the *last* occurrence of `needle`
in `hay`. -/
def rfind (hay needle : List Nat) : Option Nat :=
  if needle.length ≤ hay.length then rfindGo hay needle (hay.length - needle.length)
  else none

/-- The state of `MarkerIter` (`src/reader.rs` lines 6–13): the mapped file
bytes, the file config, the marker bytes, and the current upper bound. -/
structure MarkerIterSt where
  bytes : List Nat
  config : Config
  marker : List Nat
  limit : Nat

/-- `MarkerIter::next` (`src/reader.rs` lines 18–38), parametric in the
payload decoder `dec` (the `T::from_slice` of the element type): find the
last occurrence of the marker below `limit`, decode the `size`/`checksum`
trailer after it, slice out the record body, verify the CRC-32 — returning
`none`, i.e. terminating the iteration, on any failure — and decode the
body, lowering `limit` to the marker offset.  `usize` is 8 bytes and the
checksum is a `u32`. -/
def markerNext {α : Type} (dec : List Nat → Except Err (α × List Nat))
    (st : MarkerIterSt) : Option (α × MarkerIterSt) :=
  let limit := min st.limit st.bytes.length
  match rfind (st.bytes.take limit) st.marker with
  | none => none
  | some offset =>
    let slice := st.bytes.drop (offset + st.marker.length)
    match unsignedFromSlice st.config 8 slice with
    | .error _ => none
    | .ok (size, rest) =>
      match unsignedFromSlice st.config 4 rest with
      | .error _ => none
      | .ok (checksum, _) =>
        let slice := (st.bytes.drop (offset - size)).take size
        if crc32 slice ≠ checksum then none
        else
          match dec slice with
          | .error _ => none
          | .ok (value, _) => some (value, { st with limit := offset })

/-- `Reader::find` (`src/reader.rs` lines 68–76): a fresh iterator with
`limit = usize::MAX`, modelled as the file length (the first step clamps
with `min` anyway). -/
def findIter (bytes : List Nat) (config : Config) (marker : List Nat) :
    MarkerIterSt :=
  ⟨bytes, config, marker, bytes.length⟩

/-- `Writer::append_with_marker` (`src/writer.rs` lines 75–99) on a file
that is already a byte list: append the encoded record, then
`marker ++ size ++ crc32`, and return the offset of the record body. -/
def appendWithMarker (file : List Nat) (cfg : Config) (marker body : List Nat) :
    List Nat × Nat :=
  let size := body.length
  let checksum := crc32 body
  (file ++ body ++ marker ++ putUnsigned cfg 8 size ++ putUnsigned cfg 4 checksum,
   file.length)

/-- Outcome of a decoder that may also abort the process: `crashed` marks a
Rust panic (an `unwrap` of an error, or an out-of-bounds slice index). -/
inductive DRes (α : Type) where
  | ok (value : α) (rest : List Nat)
  | err (e : Err)
  | crashed
deriving DecidableEq, Repr

/-- `Cow<[T]>::from_slice` (`src/lib.rs` lines 374–387): decode a `usize`
length, then decode that many elements, `unwrap`ping each result — an
element decode failure is a panic, not an error. -/
def cowSliceFromSlice {α : Type} (dec : List Nat → Except Err (α × List Nat))
    (cfg : Config) (bs : List Nat) : DRes (List α) :=
  match unsignedFromSlice cfg 8 bs with
  | .error e => .err e
  | .ok (n, rest) => go n rest []
where
  go : Nat → List Nat → List α → DRes (List α)
  | 0, rest, acc => .ok acc.reverse rest
  | n + 1, rest, acc =>
    match dec rest with
    | .error _ => .crashed
    | .ok (v, rest) => go n rest (v :: acc)

/-- `Array<T>::from_slice` (`src/lib.rs` lines 231–239): decode a `usize`
length `n`, then take `&slice[..n]` — an out-of-bounds index when fewer
than `n` bytes remain, i.e. a panic. -/
def rawArrayFromSlice (cfg : Config) (bs : List Nat) : DRes (List Nat) :=
  match unsignedFromSlice cfg 8 bs with
  | .error e => .err e
  | .ok (n, rest) =>
    if rest.length < n then .crashed
    else .ok (rest.take n) (rest.drop n)

/-- `Cow<[T; N]>::from_slice` (`src/lib.rs` lines 328–335):
`std::array::from_fn` with `N` element decodes, `unwrap`ping each — a
truncated element is a panic. -/
def cowArrayFromSlice {α : Type} (dec : List Nat → Except Err (α × List Nat))
    (n : Nat) (bs : List Nat) : DRes (List α) :=
  match n with
  | 0 => .ok [] bs
  | n + 1 =>
    match dec bs with
    | .error _ => .crashed
    | .ok (v, rest) =>
      match cowArrayFromSlice dec n rest with
      | .ok vs rest => .ok (v :: vs) rest
      | r => r

end Arken

namespace LSM

/-- The records that `MergeMap` (`src/lsm.rs`) appends to the file, one
constructor per `#[derive(Arken)]` record type: `KeyValue` (a key with an
optional value, `None` being a tombstone), `Node` (a sorted run: the list
of `Ref<KeyValue>` offsets), and `MergeRoot` (the ordered list of
`Ref<Node>` offsets plus the live count).  The byte-level codec is modelled
at record granularity: a `Ref` is the index of a record in the file. -/
inductive Rec (K V : Type) where
  | kv (key : K) (value : Option V)
  | node (values : List Nat)
  | root (nodes : List Nat) (count : Nat)
deriving DecidableEq, Repr

/-- The append-only file as seen by the `Reader`. -/
abbrev File (K V : Type) := List (Rec K V)

/-- `Reader::read::<KeyValue<K, V>>` at a reference. -/
def readKV {K V : Type} (file : File K V) (r : Nat) : Option (K × Option V) :=
  match file.get? r with
  | some (.kv k v) => some (k, v)
  | _ => none

/-- `Reader::read::<Node<K, V>>` at a reference. -/
def readNode {K V : Type} (file : File K V) (r : Nat) : Option (List Nat) :=
  match file.get? r with
  | some (.node vs) => some vs
  | _ => none

/-- A decoded `MergeRoot`. -/
structure RootVal where
  nodes : List Nat
  count : Nat
deriving DecidableEq, Repr

/-- `Reader::read::<MergeRoot<K, V>>` at a reference. -/
def readRootRec {K V : Type} (file : File K V) (r : Nat) : Option RootVal :=
  match file.get? r with
  | some (.root ns c) => some ⟨ns, c⟩
  | _ => none

/-- The state of `MergeMap` (`src/lsm.rs` lines 206–212): the reader's view
of the file, the memtable (`BTreeMap<K, Option<V>>`, modelled as a key-sorted
association list), the stored root reference, and the cached root. -/
structure MergeMap (K V : Type) where
  file : File K V
  memTable : List (K × Option V)
  rootRef : Option Nat
  root : Option RootVal
deriving Repr

/-- `BTreeMap::get` on the association-list memtable. -/
def btGet {K V : Type} [LinearOrder K] : List (K × Option V) → K → Option (Option V)
  | [], _ => none
  | (k, v) :: rest, key => if key = k then some v else btGet rest key

/-- `BTreeMap::insert`: ordered insertion, replacing an equal key. -/
def btInsert {K V : Type} [LinearOrder K] :
    List (K × Option V) → K → Option V → List (K × Option V)
  | [], key, v => [(key, v)]
  | (k, w) :: rest, key, v =>
    if key < k then (key, v) :: (k, w) :: rest
    else if key = k then (key, v) :: rest
    else (k, w) :: btInsert rest key v

/-- `MergeMap::read_root` (`src/lsm.rs` lines 215–220). -/
def readRootVal {K V : Type} (s : MergeMap K V) : Option RootVal :=
  match s.rootRef with
  | none => none
  | some r => readRootRec s.file r

/-- The absorption loop of `prepare_root` (`src/lsm.rs` lines 241–265):
while the memtable holds fewer than 4096 entries, peel the last run off the
root if it has fewer than 4096 values, reading its key-value pairs into the
memtable (skipping unreadable ones). -/
def absorb {K V : Type} [LinearOrder K] (file : File K V) :
    List (K × Option V) → RootVal → List (K × Option V) × RootVal
  | mt, root =>
    if mt.length < 4096 then
      match hlast : root.nodes.getLast? with
      | none => (mt, root)
      | some r =>
        match readNode file r with
        | none => (mt, root)
        | some values =>
          if 4096 ≤ values.length then (mt, root)
          else
            let mt := values.foldl
              (fun mt r =>
                match readKV file r with
                | none => mt
                | some (k, v) => btInsert mt k v) mt
            absorb file mt ⟨root.nodes.dropLast, root.count⟩
    else (mt, root)
termination_by _ root => root.nodes.length
decreasing_by
  simp only [List.length_dropLast]
  have hne : root.nodes ≠ [] := by
    intro hnil
    rw [hnil] at hlast
    simp [List.getLast?] at hlast
  have hpos := List.length_pos.mpr hne
  omega

/-- `MergeMap::prepare_root` (`src/lsm.rs` lines 222–268). -/
def prepareRoot {K V : Type} [LinearOrder K] (s : MergeMap K V) : MergeMap K V :=
  if s.root.isSome then s
  else
    match readRootVal s with
    | none => { s with root := some ⟨[], 0⟩ }
    | some root =>
      let p := absorb s.file s.memTable root
      { s with memTable := p.1, root := some p.2 }

/-- `MergeMap::open` (`src/lsm.rs` lines 270–277). -/
def openMap {K V : Type} (file : File K V) (rootRef : Option Nat) : MergeMap K V :=
  ⟨file, [], rootRef, none⟩

/-- The loop of `slice::binary_search_by` over a list of references:
`mid = left + (right - left) / 2`, descending into the half indicated by
the comparator. -/
def binarySearchGo (xs : List Nat) (f : Nat → Ordering) :
    Nat → Nat → Option Nat
  | left, right =>
    if h : left < right then
      let mid := left + (right - left) / 2
      match f (xs.getD mid 0) with
      | .lt => binarySearchGo xs f (mid + 1) right
      | .gt => binarySearchGo xs f left mid
      | .eq => some mid
    else none
termination_by left right => right - left
decreasing_by
  · omega
  · omega

/-- `slice::binary_search_by` (only the `Ok` index is used by `get`). -/
def binarySearchRefs (xs : List Nat) (f : Nat → Ordering) : Option Nat :=
  binarySearchGo xs f 0 xs.length

/-- The run scan of `MergeMap::get` (`src/lsm.rs` lines 305–331): walk the
runs newest-first; within a run, binary-search the references, comparing by
the key read through each reference (an unreadable reference compares
`Less`); on a hit, re-read the key-value pair; a tombstone (`value?`)
short-circuits the whole lookup to `None`; any other failure moves on to
the next run. -/
def getRuns {K V : Type} [LinearOrder K] (s : MergeMap K V) :
    List Nat → K → Option V
  | [], _ => none
  | r :: rest, key =>
    match readNode s.file r with
    | none => getRuns s rest key
    | some values =>
      match binarySearchRefs values (fun vr =>
        match readKV s.file vr with
        | none => .lt
        | some (k, _) => compare k key) with
      | none => getRuns s rest key
      | some index =>
        match values.get? index with
        | none => getRuns s rest key
        | some vr =>
          match readKV s.file vr with
          | none => getRuns s rest key
          | some (_, value) =>
            match value with
            | none => none
            | some v => some v

/-- `MergeMap::get` (`src/lsm.rs` lines 298–334): the memtable answers
first (`Some(None)` is a tombstone, reported as absent); otherwise the
stored root's runs are scanned in reverse order. -/
def get {K V : Type} [LinearOrder K] (s : MergeMap K V) (key : K) : Option V :=
  match btGet s.memTable key with
  | some v => v
  | none =>
    match readRootVal s with
    | none => none
    | some root => getRuns s root.nodes.reverse key

/-- `MergeMap::insert` (`src/lsm.rs` lines 400–411): prepare the root,
check liveness via `get`, write `Some(value)` into the memtable, and bump
the cached root's count for a fresh key. -/
def insert {K V : Type} [LinearOrder K] (s : MergeMap K V) (key : K) (v : V) :
    MergeMap K V :=
  let s := prepareRoot s
  let hasKey := (get s key).isSome
  let s := { s with memTable := btInsert s.memTable key (some v) }
  if hasKey then s
  else
    match s.root with
    | some root => { s with root := some ⟨root.nodes, root.count + 1⟩ }
    | none => s

/-- `MergeMap::remove` (`src/lsm.rs` lines 413–427): prepare the root; if
the key is live, write a tombstone into the memtable and decrement the
cached count. -/
def remove {K V : Type} [LinearOrder K] (s : MergeMap K V) (key : K) :
    MergeMap K V × Bool :=
  let s := prepareRoot s
  if (get s key).isSome then
    let s := { s with memTable := btInsert s.memTable key none }
    match s.root with
    | some root => ({ s with root := some ⟨root.nodes, root.count - 1⟩ }, true)
    | none => (s, true)
  else (s, false)

/-- `MergeMap::commit` (`src/lsm.rs` lines 429–475).  With a non-empty
memtable and a cached root: drain the memtable in ascending key order,
appending each entry as a `KeyValue` record and collecting the references;
append the `Node` record; build the local `nodes` vector from the *stored*
root with the new node reference pushed (`nodes` is never read again in the
source — dead code); then append the cached root value `root` unchanged and
return its reference. -/
def commit {K V : Type} (s : MergeMap K V) : MergeMap K V × Option Nat :=
  if s.memTable.isEmpty then (s, s.rootRef)
  else
    match s.root with
    | none => (s, s.rootRef)
    | some root =>
      let p := s.memTable.foldl
        (fun (acc : File K V × List Nat) kv =>
          (acc.1 ++ [Rec.kv kv.1 kv.2], acc.2 ++ [acc.1.length]))
        (s.file, [])
      let file := p.1 ++ [Rec.node p.2]
      let nodeRef := p.1.length
      let deadNodes :=
        (match s.rootRef with
          | none => []
          | some rr =>
            match readRootRec s.file rr with
            | none => []
            | some prior => prior.nodes) ++ [nodeRef]
      let rootIdx := file.length
      let file := file ++ [Rec.root root.nodes root.count]
      let _ := deadNodes
      ({ s with file := file, memTable := [], root := none }, some rootIdx)

/-- A merge-heap element (`Element`, `src/lsm.rs` lines 40–46).  The
memtable source (`table = usize::MAX` in the source) is modelled as
`table = none`; `Element`'s `Ord` compares by key only, reversed, so the
`BinaryHeap` pops a least-key element. -/
structure Elt (K V : Type) where
  key : K
  value : Option V
  table : Option Nat
  next : Nat
deriving DecidableEq, Repr

/-- The state of `Iter` (`src/lsm.rs` lines 68–73): the pending heap and
the rest of the memtable iterator. -/
structure IterSt (K V : Type) where
  heap : List (Elt K V)
  memRest : List (K × Option V)
deriving DecidableEq, Repr

/-- `BinaryHeap::push` under `Element`'s reversed-key order: the heap is
modelled as a key-sorted list whose head is the element `pop` removes.
`BinaryHeap` leaves the order of equal elements unspecified; this model
inserts after existing equal keys, and no theorem below depends on the
tie order. -/
def heapPush {K V : Type} [LinearOrder K] :
    List (Elt K V) → Elt K V → List (Elt K V)
  | [], e => [e]
  | x :: xs, e => if e.key < x.key then e :: x :: xs else x :: heapPush xs e

/-- The values array of run `t`, read through the *stored* root reference:
root record, `nodes.get(t)`, node record. -/
def runValues {K V : Type} (s : MergeMap K V) (t : Nat) : Option (List Nat) :=
  s.rootRef.bind fun rr =>
  (readRootRec s.file rr).bind fun root =>
  (root.nodes.get? t).bind fun nr => readNode s.file nr

/-- The entry of run `t` at index `i`, read exactly as the successor lookup
in `Iter::next` does (`src/lsm.rs` lines 98–103): root, `nodes.get(t)`,
node, `values.get(i)`, key-value. -/
def runEntry {K V : Type} (s : MergeMap K V) (t i : Nat) :
    Option (K × Option V) :=
  (runValues s t).bind fun values =>
  (values.get? i).bind fun vr => readKV s.file vr

/-- The number of values of run `t`, used only for the fuel measure. -/
def runLen {K V : Type} (s : MergeMap K V) (t : Nat) : Nat :=
  ((runValues s t).map List.length).getD 0

/-- After popping `e`, push the successor from `e`'s source
(`src/lsm.rs` lines 87–111): the next memtable entry when `e` came from
the memtable, else the entry after `e.next` of run `e.table`. -/
def pushSucc {K V : Type} [LinearOrder K] (s : MergeMap K V) (e : Elt K V)
    (st : IterSt K V) : IterSt K V :=
  match e.table with
  | none =>
    match st.memRest with
    | [] => st
    | (k, v) :: rest => ⟨heapPush st.heap ⟨k, v, none, e.next + 1⟩, rest⟩
  | some t =>
    match runEntry s t (e.next + 1) with
    | none => st
    | some (k, v) =>
      { st with heap := heapPush st.heap ⟨k, v, some t, e.next + 1⟩ }

/-- Fuel potential of one heap element: one for the element itself plus
the entries its source can still deliver. -/
def eltPot {K V : Type} (s : MergeMap K V) (mlen : Nat) (e : Elt K V) : Nat :=
  match e.table with
  | none => 1 + mlen
  | some t => 1 + (runLen s t - (e.next + 1))

/-- Fuel potential of an iterator state: every pop-and-replace step
strictly decreases it. -/
def pot {K V : Type} (s : MergeMap K V) (st : IterSt K V) : Nat :=
  (st.heap.map (eltPot s st.memRest.length)).sum

/-- The equal-key drain loop of `Iter::next` (`src/lsm.rs` lines 113–149):
while the heap top carries the same key, pop it, let its value override,
and push its successor.  `fuel` dominates the potential; it never runs out
when the caller supplies `pot + 1`. -/
def drainEqF {K V : Type} [LinearOrder K] (s : MergeMap K V) :
    Nat → K → Option V → IterSt K V → Option V × IterSt K V
  | 0, _, value, st => (value, st)
  | fuel + 1, key, value, st =>
    match st.heap with
    | [] => (value, st)
    | e :: rest =>
      if e.key = key then
        drainEqF s fuel key e.value (pushSucc s e ⟨rest, st.memRest⟩)
      else (value, st)

/-- The outer loop of `Iter::next` (`src/lsm.rs` lines 78–156), iterated to
produce the whole output sequence: pop the least element, push its
successor, drain equal keys (last popped wins), skip tombstones, yield
`(key, value)` pairs. -/
def iterLoopF {K V : Type} [LinearOrder K] (s : MergeMap K V) :
    Nat → IterSt K V → List (K × V)
  | 0, _ => []
  | fuel + 1, st =>
    match st.heap with
    | [] => []
    | e :: rest =>
      let st1 := pushSucc s e ⟨rest, st.memRest⟩
      let p := drainEqF s fuel e.key e.value st1
      match p.1 with
      | none => iterLoopF s fuel p.2
      | some v => (e.key, v) :: iterLoopF s fuel p.2

/-- Seeding of the run sources in `MergeMap::iter`
(`src/lsm.rs` lines 351–374): for each run of the stored root, push its
first readable entry with its run index. -/
def seedRuns {K V : Type} [LinearOrder K] (s : MergeMap K V) :
    List Nat → Nat → List (Elt K V) → List (Elt K V)
  | [], _, heap => heap
  | nr :: rest, index, heap =>
    let heap :=
      match readNode s.file nr with
      | none => heap
      | some values =>
        match values.head? with
        | none => heap
        | some vr =>
          match readKV s.file vr with
          | none => heap
          | some (k, v) => heapPush heap ⟨k, v, some index, 0⟩
    seedRuns s rest (index + 1) heap

/-- `MergeMap::iter` (`src/lsm.rs` lines 337–381): seed the heap with the
first memtable entry and the first entry of every run of the stored root. -/
def iterInit {K V : Type} [LinearOrder K] (s : MergeMap K V) : IterSt K V :=
  let p : List (Elt K V) × List (K × Option V) :=
    match s.memTable with
    | [] => ([], [])
    | (k, v) :: rest => ([⟨k, v, none, 0⟩], rest)
  let heap :=
    match s.rootRef with
    | none => p.1
    | some rr =>
      match readRootRec s.file rr with
      | none => p.1
      | some root => seedRuns s root.nodes 0 p.1
  ⟨heap, p.2⟩

/-- The full ordered traversal: `iter` run to exhaustion. -/
def iterList {K V : Type} [LinearOrder K] (s : MergeMap K V) : List (K × V) :=
  iterLoopF s (pot s (iterInit s) + 1) (iterInit s)

/-- `Keys::next` maps `|(k, _)| k` over `Iter` (`src/lsm.rs` lines 159–171). -/
def keysList {K V : Type} [LinearOrder K] (s : MergeMap K V) : List K :=
  (iterList s).map Prod.fst

/-- `Values::next` also maps `|(k, _)| k` over `Iter`
(`src/lsm.rs` lines 173–185): its `Item` is `Cow<K>` and it yields the
*key* of each pair. -/
def valuesList {K V : Type} [LinearOrder K] (s : MergeMap K V) : List K :=
  (iterList s).map Prod.fst

end LSM

namespace HAMT

/-- Number of set bits (`u64::count_ones`): the 64 bits of the mask are
summed directly, keeping the definition kernel-reducible. -/
def popcount (n : Nat) : Nat :=
  (List.range 64).foldl (fun acc i => acc + n / 2 ^ i % 2) 0

/-- `Mask::get_dense_index` (`src/hash_trie.rs` lines 20–26): when bit
`index` is set, the popcount of the bits below it. -/
def maskGetDense (m index : Nat) : Option Nat :=
  if m &&& (1 <<< index) = 1 <<< index then
    some (popcount (m &&& ((1 <<< index) - 1)))
  else none

/-- `Mask::last_index` (`src/hash_trie.rs` lines 29–35):
`63 - leading_zeros`, i.e. the highest set bit of the 64-bit mask. -/
def maskLastIndex (m : Nat) : Option Nat :=
  if m = 0 then none
  else some ((List.range 64).foldl (fun acc i => if m / 2 ^ i % 2 = 1 then i else acc) 0)

/-- `Mask::clear` (`src/hash_trie.rs` lines 38–40): `m &= !(1 << index)`
in `u64`. -/
def maskClear (m index : Nat) : Nat :=
  m &&& (0xFFFFFFFFFFFFFFFF ^^^ (1 <<< index))

/-- `Mask::set` (`src/hash_trie.rs` lines 43–45). -/
def maskSet (m index : Nat) : Nat :=
  m ||| (1 <<< index)

/-- The records the hash trie appends (`src/hash_trie.rs`): `KeyValue`,
`Node` (two masks with their dense reference arrays), and `HashRoot`.
References are record indices, as in the LSM model. -/
inductive HRec (K V : Type) where
  | kv (key : K) (value : V)
  | node (valueMask : Nat) (values : List Nat) (nodeMask : Nat) (nodes : List Nat)
  | root (node : Nat) (count : Nat)
deriving DecidableEq, Repr

abbrev HFile (K V : Type) := List (HRec K V)

/-- A decoded on-disk `Node`. -/
structure DiskNode where
  valueMask : Nat
  values : List Nat
  nodeMask : Nat
  nodes : List Nat
deriving DecidableEq, Repr

def readKVRec {K V : Type} (file : HFile K V) (r : Nat) : Option (K × V) :=
  match file.get? r with
  | some (.kv k v) => some (k, v)
  | _ => none

def readNodeRec {K V : Type} (file : HFile K V) (r : Nat) : Option DiskNode :=
  match file.get? r with
  | some (.node vm vs nm ns) => some ⟨vm, vs, nm, ns⟩
  | _ => none

def readRootRec {K V : Type} (file : HFile K V) (r : Nat) : Option (Nat × Nat) :=
  match file.get? r with
  | some (.root n c) => some (n, c)
  | _ => none

/-- `MemNode` (`src/hash_trie.rs` lines 78–88): the on-disk halves plus the
in-memory overlay halves. -/
inductive MemNode (K V : Type) where
  | mk (valueMask : Nat) (values : List Nat) (nodeMask : Nat) (nodes : List Nat)
      (memValueMask : Nat) (memValues : List (K × V))
      (memNodeMask : Nat) (memNodes : List (MemNode K V))
deriving Repr

/-- `MemNode::from(Node)` (`src/hash_trie.rs` lines 105–115): adopt the
disk halves, empty overlay. -/
def MemNode.fromDisk {K V : Type} (d : DiskNode) : MemNode K V :=
  ⟨d.valueMask, d.values, d.nodeMask, d.nodes, 0, [], 0, []⟩

/-- `HashMap` (`src/hash_trie.rs` lines 209–215). -/
structure HashMap (K V : Type) where
  file : HFile K V
  root : Option (MemNode K V)
  rootRef : Option Nat
  count : Nat

/-- Result of the insert walk: the value replaced for an existing key, a
fresh addition (`count += 1`), or an early `None` return through `?` after
a failed read (the mutations made so far are kept). -/
inductive InsRes (V : Type) where
  | replaced (old : V)
  | added
  | aborted
deriving DecidableEq, Repr

/-- The split chain of `insert` (`src/hash_trie.rs` lines 478–505 and
542–569): descend while the two keys share slot indices, placing both as
overlay values at the first level where they differ; if the hash is
exhausted the new key-value pair is inserted in front of the re-inserted
old one in a collision leaf. -/
def buildSplit {K V : Type} (fuel : Nat) (shift h oldH : Nat) (kv oldKv : K × V) :
    MemNode K V :=
  match fuel with
  | 0 => ⟨0, [], 0, [], 0, [], 0, []⟩
  | fuel + 1 =>
  if shift < 64 then
    let index := (h >>> shift) &&& 63
    let oldIndex := (oldH >>> shift) &&& 63
    if index ≠ oldIndex then
      let m1 := maskSet 0 index
      let vs1 := [kv]
      let m2 := maskSet m1 oldIndex
      let vs2 :=
        match maskGetDense m2 oldIndex with
        | some dense => vs1.insertNth dense oldKv
        | none => vs1
      ⟨0, [], 0, [], m2, vs2, 0, []⟩
    else
      ⟨0, [], 0, [], 0, [], maskSet 0 index,
        [buildSplit fuel (shift + 6) h oldH kv oldKv]⟩
  else
    ⟨0, [], 0, [], 0, [kv, oldKv], 0, []⟩

/-- The main walk of `HashMap::insert` (`src/hash_trie.rs` lines 449–589),
at one overlay node: consult, in order, the overlay child slot, the overlay
value slot, the disk child slot (promoted into the overlay *without*
clearing the disk bit), and the disk value slot (replaced or split *without*
clearing the disk bit), else install the value as an overlay value.
Returns the updated node and what happened. -/
def insertGo {K V : Type} [DecidableEq K] (hash : K → Nat) (file : HFile K V)
    (fuel : Nat) (mem : MemNode K V) (shift h : Nat) (kv : K × V) :
    MemNode K V × InsRes V :=
  match fuel with
  | 0 => (mem, .aborted)
  | fuel + 1 =>
  if shift < 64 then
    match mem with
    | .mk vm vs nm ns mvm mvs mnm mns =>
      let index := (h >>> shift) &&& 63
      match maskGetDense mnm index with
      | some dense =>
        match mns.get? dense with
        | none => (.mk vm vs nm ns mvm mvs mnm mns, .aborted)
        | some child =>
          let p := insertGo hash file fuel child (shift + 6) h kv
          (.mk vm vs nm ns mvm mvs mnm (mns.set dense p.1), p.2)
      | none =>
      match maskGetDense mvm index with
      | some dense =>
        let oldKv := mvs.getD dense kv
        let mvs := mvs.eraseIdx dense
        let mvm := maskClear mvm index
        let oldH := hash oldKv.1
        if h = oldH ∧ oldKv.1 = kv.1 then
          let mvm := maskSet mvm index
          match maskGetDense mvm index with
          | none => (.mk vm vs nm ns mvm mvs mnm mns, .aborted)
          | some dense =>
            (.mk vm vs nm ns mvm (mvs.insertNth dense kv) mnm mns,
              .replaced oldKv.2)
        else
          let mnm := maskSet mnm index
          match maskGetDense mnm index with
          | none => (.mk vm vs nm ns mvm mvs mnm mns, .aborted)
          | some dense =>
            (.mk vm vs nm ns mvm mvs mnm
              (mns.insertNth dense (buildSplit fuel (shift + 6) h oldH kv oldKv)),
              .added)
      | none =>
      match maskGetDense nm index with
      | some dense =>
        match ns.get? dense >>= readNodeRec file with
        | none => (.mk vm vs nm ns mvm mvs mnm mns, .aborted)
        | some disk =>
          let mnm := maskSet mnm index
          match maskGetDense mnm index with
          | none => (.mk vm vs nm ns mvm mvs mnm mns, .aborted)
          | some dense2 =>
            let mns := mns.insertNth dense2 (MemNode.fromDisk disk)
            match mns.get? dense2 with
            | none => (.mk vm vs nm ns mvm mvs mnm mns, .aborted)
            | some child =>
              let p := insertGo hash file fuel child (shift + 6) h kv
              (.mk vm vs nm ns mvm mvs mnm (mns.set dense2 p.1), p.2)
      | none =>
      match maskGetDense vm index with
      | some dense =>
        match vs.get? dense >>= readKVRec file with
        | none => (.mk vm vs nm ns mvm mvs mnm mns, .aborted)
        | some oldKv =>
          let oldH := hash oldKv.1
          if h = oldH ∧ oldKv.1 = kv.1 then
            let mvm := maskSet mvm index
            match maskGetDense mvm index with
            | none => (.mk vm vs nm ns mvm mvs mnm mns, .aborted)
            | some dense2 =>
              (.mk vm vs nm ns mvm (mvs.insertNth dense2 kv) mnm mns,
                .replaced oldKv.2)
          else
            let mnm := maskSet mnm index
            match maskGetDense mnm index with
            | none => (.mk vm vs nm ns mvm mvs mnm mns, .aborted)
            | some dense2 =>
              (.mk vm vs nm ns mvm mvs mnm
                (mns.insertNth dense2 (buildSplit fuel (shift + 6) h oldH kv oldKv)),
                .added)
      | none =>
        let mvm := maskSet mvm index
        match maskGetDense mvm index with
        | none => (.mk vm vs nm ns mvm mvs mnm mns, .aborted)
        | some dense =>
          (.mk vm vs nm ns mvm (mvs.insertNth dense kv) mnm mns, .added)
  else
    match mem with
    | .mk vm vs nm ns mvm mvs mnm mns =>
      (.mk vm vs nm ns mvm (kv :: mvs) mnm mns, .added)

/-- `HashMap::insert` (`src/hash_trie.rs` lines 413–590): load the root
from disk if the overlay is cold, or create a fresh root holding only the
new pair; otherwise run the walk and update the count accordingly. -/
def insert {K V : Type} [DecidableEq K] (hash : K → Nat) (s : HashMap K V)
    (key : K) (value : V) : HashMap K V × Option V :=
  let h := hash key
  let loaded : Option (MemNode K V × Nat) :=
    match s.root with
    | some m => some (m, s.count)
    | none =>
      match s.rootRef with
      | none => none
      | some rr =>
        match readRootRec s.file rr with
        | none => none
        | some rc =>
          match readNodeRec s.file rc.1 with
          | none => none
          | some d => some (MemNode.fromDisk d, rc.2)
  match loaded with
  | none =>
    let index := h &&& 63
    let m : MemNode K V := ⟨0, [], 0, [], maskSet 0 index, [(key, value)], 0, []⟩
    ({ s with root := some m, count := 1 }, none)
  | some mc =>
    let p := insertGo hash s.file 12 mc.1 0 h (key, value)
    match p.2 with
    | .replaced old => ({ s with root := some p.1, count := mc.2 }, some old)
    | .added => ({ s with root := some p.1, count := mc.2 + 1 }, none)
    | .aborted => ({ s with root := some p.1, count := mc.2 }, none)

/-- `HashMap::open` (`src/hash_trie.rs` lines 226–233). -/
def openMap {K V : Type} (file : HFile K V) (rootRef : Option Nat) :
    HashMap K V :=
  ⟨file, none, rootRef, 0⟩

/-- The node state threaded through `commit_node`: the file plus the four
disk-half fields being rewritten. -/
structure CommitAcc (K V : Type) where
  file : HFile K V
  valueMask : Nat
  values : List Nat
  nodeMask : Nat
  nodes : List Nat

/-- The overlay-value loop of `commit_node` (`src/hash_trie.rs` lines
758–779): take the highest set bit of the overlay value mask, append the
overlay value as a `KeyValue` record, set the disk value bit, and insert
the reference at the dense position.  `fuel2` bounds the loop; a 64-bit
mask loses a bit per iteration, so the 64 supplied by `commitNodeF` is
never exhausted (the `continue` branches of the source re-test an
unchanged mask and are unreachable: the bit just queried is set). -/
def commitValuesF {K V : Type} :
    Nat → CommitAcc K V → Nat → List (K × V) → CommitAcc K V
  | 0, acc, _, _ => acc
  | fuel2 + 1, acc, mvm, mvs =>
    match maskLastIndex mvm with
    | none => acc
    | some index =>
      match maskGetDense mvm index with
      | none => acc
      | some dense =>
        let mvm := maskClear mvm index
        match mvs.get? dense with
        | none => acc
        | some kv =>
          let mvs := mvs.eraseIdx dense
          let r := acc.file.length
          let file := acc.file ++ [HRec.kv kv.1 kv.2]
          let vm := maskSet acc.valueMask index
          match maskGetDense vm index with
          | none =>
            commitValuesF fuel2 { acc with file := file, valueMask := vm } mvm mvs
          | some dense2 =>
            commitValuesF fuel2
              { acc with
                  file := file
                  valueMask := vm
                  values := acc.values.insertNth dense2 r }
              mvm mvs

/-- The overlay-child loop of `commit_node` (`src/hash_trie.rs` lines
734–756), parametric in the recursive call that commits one child at the
next depth: take the highest set bit of the overlay node mask, commit the
removed overlay child, clear the disk *value* bit at that index (without
touching the `values` array), set the disk node bit, and insert the child
reference at the dense position.  `fuel2` bounds the loop as in
`commitValuesF`. -/
def commitChildrenLoop {K V : Type}
    (commitChild : HFile K V → MemNode K V → HFile K V × Nat) :
    Nat → CommitAcc K V → Nat → List (MemNode K V) → CommitAcc K V
  | 0, acc, _, _ => acc
  | fuel2 + 1, acc, mnm, mns =>
    match maskLastIndex mnm with
    | none => acc
    | some index =>
      match maskGetDense mnm index with
      | none => acc
      | some dense =>
        let mnm := maskClear mnm index
        match mns.get? dense with
        | none => acc
        | some child =>
          let mns := mns.eraseIdx dense
          let p := commitChild acc.file child
          let vm := maskClear acc.valueMask index
          let nm := maskSet acc.nodeMask index
          match maskGetDense nm index with
          | none =>
            commitChildrenLoop commitChild fuel2
              { acc with
                  file := p.1
                  valueMask := vm
                  nodeMask := nm }
              mnm mns
          | some dense2 =>
            commitChildrenLoop commitChild fuel2
              { file := p.1
                valueMask := vm
                values := acc.values
                nodeMask := nm
                nodes := acc.nodes.insertNth dense2 p.2 }
              mnm mns

/-- `commit_node` (`src/hash_trie.rs` lines 708–789).  `fuel` bounds the
recursion depth (the trie has at most 11 interior levels, shifts
0, 6, …, 60, so the 12 supplied by `commit` is never exhausted).  At a
collision leaf (shift ≥ 64) every overlay value is appended and its
reference *prepended* to the disk values, leaving both masks untouched. -/
def commitNodeF {K V : Type} : Nat → HFile K V → MemNode K V → Nat →
    HFile K V × Nat
  | 0, file, _, _ => (file, 0)
  | fuel + 1, file, mem, shift =>
    match mem with
    | .mk vm vs nm ns mvm mvs mnm mns =>
      if 64 ≤ shift then
        let p := mvs.foldl
          (fun (acc : HFile K V × List Nat) kv =>
            (acc.1 ++ [HRec.kv kv.1 kv.2], acc.1.length :: acc.2))
          (file, vs)
        (p.1 ++ [HRec.node vm p.2 nm ns], p.1.length)
      else
        let a := commitChildrenLoop
          (fun f m => commitNodeF fuel f m (shift + 6))
          64 ⟨file, vm, vs, nm, ns⟩ mnm mns
        let b := commitValuesF 64 a mvm mvs
        (b.file ++ [HRec.node b.valueMask b.values b.nodeMask b.nodes],
          b.file.length)

/-- `HashMap::commit` (`src/hash_trie.rs` lines 791–810): commit the taken
overlay root, then append `HashRoot { node, count }` and return its
reference. -/
def commit {K V : Type} (s : HashMap K V) : HashMap K V × Option Nat :=
  match s.root with
  | none => (s, none)
  | some mem =>
    let p := commitNodeF 12 s.file mem 0
    let rootIdx := p.1.length
    let file := p.1 ++ [HRec.root p.2 s.count]
    ({ s with file := file, root := none }, some rootIdx)

end HAMT

namespace Arken

/-- The configuration of a fresh file: variable width, little endian
(`Config::default`). -/
def s5Config : Config := ⟨false, .little⟩

/-- The marker bytes `b"msg"` of scenario S5. -/
def s5Marker : List Nat := [109, 115, 103]

/-- Scenario S5, first write: a fresh tempfile (the four header bytes)
followed by the record "first" stamped with the `msg` marker trailer. -/
def s5File1 : List Nat :=
  (appendWithMarker (configPutBytes s5Config) s5Config s5Marker
    (strPutBytes [102, 105, 114, 115, 116])).1

/-- Scenario S5, second write: the record "second" stamped with the same
marker trailer. -/
def s5File2 : List Nat :=
  (appendWithMarker s5File1 s5Config s5Marker
    (strPutBytes [115, 101, 99, 111, 110, 100])).1

/-- Scenario S5, corruption: the last 4 bytes of the file zeroed (they land
inside the 5-byte varint checksum of the newer trailer; the marker bytes
stay intact). -/
def s5Corrupted : List Nat :=
  s5File2.take (s5File2.length - 4) ++ [0, 0, 0, 0]

end Arken

namespace Trigram

/-- `ByteTrigramIter` (`src/trigram.rs` lines 13–37): the sliding 3-byte
windows of a byte string, in order. -/
def byteTrigrams : List Nat → List (List Nat)
  | b1 :: b2 :: b3 :: rest => [b1, b2, b3] :: byteTrigrams (b2 :: b3 :: rest)
  | _ => []

/-- The trigram map state: an LSM `MergeMap` from trigram byte strings to
postings lists `[KeyValue { key, value }]` (`src/trigram.rs` lines
101–114).  Byte strings are ordered lexicographically, as `Ord` on
`Cow<[u8]>` is. -/
abbrev TrigramMap (V : Type) := LSM.MergeMap (List Nat) (List (List Nat × V))

/-- `TrigramMap::contains_key` (`src/trigram.rs` lines 126–142): look up
the postings of the key's *first* trigram and scan them for the key. -/
def containsKey {V : Type} (m : TrigramMap V) (key : List Nat) : Bool :=
  match (byteTrigrams key).head? with
  | none => false
  | some t =>
    match LSM.get m t with
    | none => false
    | some values => values.any (fun kv => kv.1 = key)

/-- `TrigramMap::get` (`src/trigram.rs` lines 144–155). -/
def get {V : Type} (m : TrigramMap V) (key : List Nat) : Option V :=
  match (byteTrigrams key).head? with
  | none => none
  | some t =>
    match LSM.get m t with
    | none => none
    | some values => (values.find? (fun kv => kv.1 = key)).map (·.2)

/-- `TrigramMap::remove` (`src/trigram.rs` lines 222–253): when the key is
indexed, walk its trigrams, remove the matching posting from each list
(remembering its value), deleting postings lists that become empty. -/
def remove {V : Type} (m : TrigramMap V) (key : List Nat) :
    TrigramMap V × Option V :=
  if ¬ containsKey m key then (m, none)
  else
    (byteTrigrams key).foldl
      (fun (acc : TrigramMap V × Option V) t =>
        let values := (LSM.get acc.1 t).getD []
        match values.findIdx? (fun kv => kv.1 = key) with
        | none => acc
        | some index =>
          let value := (values.get? index).map (·.2)
          let values := values.eraseIdx index
          if values.isEmpty then ((LSM.remove acc.1 t).1, value)
          else (LSM.insert acc.1 t values, value))
      (m, none)

/-- `TrigramMap::insert` (`src/trigram.rs` lines 196–220): **when the key
is already indexed the function only calls `remove` and returns** — the new
value is never stored; otherwise each trigram's postings list gets
`{ key, value }` appended. -/
def insert {V : Type} (m : TrigramMap V) (key : List Nat) (value : V) :
    TrigramMap V × Option V :=
  if containsKey m key then remove m key
  else
    ((byteTrigrams key).foldl
      (fun (acc : TrigramMap V) t =>
        let values := (LSM.get acc t).getD []
        LSM.insert acc t (values ++ [(key, value)]))
      m, none)

end Trigram

namespace LSM

/-- The number of runs reachable through the stored root reference. -/
def runCount {K V : Type} (s : MergeMap K V) : Nat :=
  ((s.rootRef.bind (readRootRec s.file)).map (fun root => root.nodes.length)).getD 0

/-- Boolean comparison of two optional run entries by key. -/
def entryLtB {K V : Type} [LinearOrder K]
    (a b : Option (K × Option V)) : Bool :=
  match a, b with
  | some e1, some e2 => decide (e1.1 < e2.1)
  | _, _ => true

/-- The LSM data-model invariant of a `MergeMap` state (spec section 3):
the memtable is a `BTreeMap`, so its keys are strictly ascending, and
within each on-disk run reachable from the stored root the keys are
strictly ascending (stated on consecutive readable entries). -/
def sortedState {K V : Type} [LinearOrder K] (s : MergeMap K V) : Prop :=
  List.Chain' (fun a b => a.1 < b.1) s.memTable ∧
  ∀ t < runCount s, ∀ i < runLen s t,
    entryLtB (runEntry s t i) (runEntry s t (i + 1)) = true

/-- A concrete sorted two-source state for evaluating the iterators: one
committed run holding keys 1 and 3 plus a memtable entry for key 2. -/
def c10WitnessMap : MergeMap Nat Nat :=
  ⟨[Rec.kv 1 (some 10), Rec.kv 3 (some 30), Rec.node [0, 1],
    Rec.root [2] 2], [(2, some 20)], some 3, none⟩

/-- An optional strict lower bound on a key. -/
def obelow {K : Type} [LinearOrder K] (b : Option K) (k : K) : Prop :=
  match b with
  | none => True
  | some x => x < k

/-- The structural invariant of the iterator state: the heap list is
key-sorted (our representation of the binary heap), every run element
faithfully carries the entry of its source at its index, the memtable
element (there is at most one) is linked to the rest of the memtable in
ascending order. -/
def iterInv {K V : Type} [LinearOrder K] (s : MergeMap K V)
    (st : IterSt K V) : Prop :=
  List.Pairwise (fun a b : Elt K V => a.key ≤ b.key) st.heap ∧
  (∀ e ∈ st.heap, ∀ t, e.table = some t →
    runEntry s t e.next = some (e.key, e.value)) ∧
  (∀ e ∈ st.heap, e.table = none →
    List.Chain' (· < ·) (e.key :: st.memRest.map Prod.fst)) ∧
  st.heap.countP (fun e => e.table.isNone) ≤ 1

end LSM

-- ======================================================================
-- Theorems
-- ======================================================================

namespace Arken

theorem leBytes_length (n v : Nat) : (leBytes n v).length = n := by
  induction n generalizing v with
  | zero => rfl
  | succ n ih => simp [leBytes, ih]

theorem ofLeBytes_leBytes (n v : Nat) (h : v < 256 ^ n) :
    ofLeBytes (leBytes n v) = v := by
  induction n generalizing v with
  | zero => simp at h; simp [leBytes, ofLeBytes, h]
  | succ n ih =>
    have hlt : v / 256 < 256 ^ n := by
      rw [Nat.div_lt_iff_lt_mul (by omega)]
      calc v < 256 ^ (n + 1) := h
        _ = 256 ^ n * 256 := by rw [Nat.pow_succ]
    simp [leBytes, ofLeBytes, ih (v / 256) hlt]
    omega

theorem natOfBytes_natBytes (e : Endian) (n v : Nat) (h : v < 256 ^ n) :
    natOfBytes e (natBytes e n v) = v := by
  cases e <;> simp [natBytes, natOfBytes, ofLeBytes_leBytes n v h]

theorem putUVarF_irrel : ∀ fuel1 fuel2 v, v ≤ fuel1 → v ≤ fuel2 →
    putUVarF fuel1 v = putUVarF fuel2 v := by
  intro fuel1
  induction fuel1 with
  | zero =>
    intro fuel2 v h1 h2
    have hv : v = 0 := by omega
    subst hv
    cases fuel2 with
    | zero => rfl
    | succ fuel2 => simp [putUVarF]
  | succ fuel1 ih =>
    intro fuel2 v h1 h2
    cases fuel2 with
    | zero =>
      have hv : v = 0 := by omega
      subst hv
      simp [putUVarF]
    | succ fuel2 =>
      simp only [putUVarF]
      by_cases hv : v < 0x80
      · simp [hv]
      · simp only [if_neg hv]
        have hd : v / 0x80 < v := Nat.div_lt_self (by omega) (by omega)
        rw [ih fuel2 (v / 0x80) (by omega) (by omega)]

theorem putUVar_unfold (v : Nat) :
    putUVar v = if v < 0x80 then [v] else (v % 0x80 + 0x80) :: putUVar (v / 0x80) := by
  unfold putUVar
  by_cases hv : v < 0x80
  · rw [if_pos hv]
    cases v with
    | zero => rfl
    | succ w => simp [putUVarF, hv]
  · rw [if_neg hv]
    have h1 : 1 ≤ v := by omega
    obtain ⟨w, rfl⟩ : ∃ w, v = w + 1 := ⟨v - 1, by omega⟩
    simp only [putUVarF, if_neg hv]
    congr 1
    have hd : (w + 1) / 0x80 < w + 1 := Nat.div_lt_self (by omega) (by omega)
    exact putUVarF_irrel w ((w + 1) / 0x80) ((w + 1) / 0x80) (by omega) le_rfl

theorem decodeUVar_putUVar (w : Nat) :
    ∀ v shift acc rest, acc + v * 2 ^ shift < 2 ^ w →
      decodeUVar w (putUVar v ++ rest) shift acc = .ok (acc + v * 2 ^ shift, rest) := by
  intro v
  induction v using Nat.strong_induction_on with
  | _ v ih =>
    intro shift acc rest hlt
    by_cases hv : v < 0x80
    · rw [putUVar_unfold, if_pos hv, List.singleton_append]
      have hmod : v % 0x80 = v := Nat.mod_eq_of_lt hv
      have hsm : v * 2 ^ shift % 2 ^ w = v * 2 ^ shift :=
        Nat.mod_eq_of_lt (by omega)
      simp only [decodeUVar, hmod, hsm, if_pos hv]
    · rw [putUVar_unfold, if_neg hv, List.cons_append]
      have hb1 : ¬ v % 0x80 + 0x80 < 0x80 := by omega
      have hmod : (v % 0x80 + 0x80) % 0x80 = v % 0x80 := by omega
      have hterm : v % 0x80 * 2 ^ shift ≤ v * 2 ^ shift :=
        Nat.mul_le_mul_right _ (Nat.mod_le v 0x80)
      have hsm : v % 0x80 * 2 ^ shift % 2 ^ w = v % 0x80 * 2 ^ shift :=
        Nat.mod_eq_of_lt (by omega)
      have hbig : 2 ^ (shift + 7) ≤ v * 2 ^ shift := by
        rw [Nat.pow_add]
        calc (2:Nat) ^ shift * 2 ^ 7 = 2 ^ 7 * 2 ^ shift := by ring
          _ ≤ v * 2 ^ shift := Nat.mul_le_mul_right _ (by omega)
      have hshift : ¬ w < shift + 7 := by
        have : 2 ^ (shift + 7) < 2 ^ w := by omega
        have := (Nat.pow_lt_pow_iff_right (by omega : 1 < 2)).mp this
        omega
      have hdecomp : v = 0x80 * (v / 0x80) + v % 0x80 := by omega
      have hrec := ih (v / 0x80) (Nat.div_lt_self (by omega) (by omega))
        (shift + 7) (acc + v % 0x80 * 2 ^ shift) rest (by
          rw [Nat.pow_add]
          calc acc + v % 0x80 * 2 ^ shift + v / 0x80 * (2 ^ shift * 2 ^ 7)
              = acc + (0x80 * (v / 0x80) + v % 0x80) * 2 ^ shift := by ring
            _ = acc + v * 2 ^ shift := by rw [← hdecomp]
            _ < 2 ^ w := hlt)
      have hsum : acc + v % 0x80 * 2 ^ shift + v / 0x80 * 2 ^ (shift + 7)
          = acc + v * 2 ^ shift := by
        rw [Nat.pow_add]
        calc acc + v % 0x80 * 2 ^ shift + v / 0x80 * (2 ^ shift * 2 ^ 7)
            = acc + (0x80 * (v / 0x80) + v % 0x80) * 2 ^ shift := by ring
          _ = acc + v * 2 ^ shift := by rw [← hdecomp]
      rw [hsum] at hrec
      simpa only [decodeUVar, hmod, hsm, if_neg hb1, if_neg hshift] using hrec

theorem xor_ones (w : Nat) : ∀ x, x < 2 ^ w → x ^^^ (2 ^ w - 1) = 2 ^ w - 1 - x := by
  induction w with
  | zero =>
    intro x hx
    have hx0 : x = 0 := by simpa using hx
    subst hx0
    decide
  | succ w ih =>
    intro x hx
    have hpow : (2 : Nat) ^ (w + 1) = 2 * 2 ^ w := by
      rw [Nat.pow_succ]; ring
    have hp : (0 : Nat) < 2 ^ w := Nat.two_pow_pos w
    have hdiv : (2 ^ (w + 1) - 1) / 2 = 2 ^ w - 1 := by omega
    have hd : (x ^^^ (2 ^ (w + 1) - 1)) / 2 = x / 2 ^^^ (2 ^ w - 1) := by
      rw [Nat.xor_div_two, hdiv]
    have hm : (x ^^^ (2 ^ (w + 1) - 1)) % 2 = (x + (2 ^ (w + 1) - 1)) % 2 :=
      Nat.xor_mod_two_eq
    have hihx := ih (x / 2) (by omega)
    rw [hihx] at hd
    omega

theorem toUnsigned_lt (w : Nat) (v : Int) : toUnsigned w v < 2 ^ w := by
  unfold toUnsigned
  have hcast : ((2 : Int) ^ w) = ((2 ^ w : Nat) : Int) := by push_cast; ring
  rw [hcast]
  have h2 : (0 : Int) < ((2 ^ w : Nat) : Int) := by
    exact_mod_cast Nat.two_pow_pos w
  have hlt := Int.emod_lt_of_pos v h2
  have hnn := Int.emod_nonneg v h2.ne'
  omega

theorem toUnsigned_of_nonneg (w : Nat) (v : Int) (h0 : 0 ≤ v)
    (h : v < (2 ^ w : Nat)) : toUnsigned w v = v.toNat := by
  unfold toUnsigned
  have hcast : ((2 : Int) ^ w) = ((2 ^ w : Nat) : Int) := by push_cast; ring
  rw [hcast, Int.emod_eq_of_lt h0 (by exact_mod_cast h)]

theorem toUnsigned_of_neg (w : Nat) (v : Int) (hlo : -((2 ^ w : Nat) : Int) ≤ v)
    (hhi : v < 0) : toUnsigned w v = (v + (2 ^ w : Nat)).toNat := by
  unfold toUnsigned
  have hcast : ((2 : Int) ^ w) = ((2 ^ w : Nat) : Int) := by push_cast; ring
  have h2 : (0 : Int) < ((2 ^ w : Nat) : Int) := by
    exact_mod_cast Nat.two_pow_pos w
  have hshift : v % ((2 ^ w : Nat) : Int) = (v + (2 ^ w : Nat)) % ((2 ^ w : Nat) : Int) := by
    conv_rhs => rw [Int.add_emod, Int.emod_self, Int.add_zero, Int.emod_emod_of_dvd _ dvd_rfl]
  rw [hcast, hshift, Int.emod_eq_of_lt (by omega) (by omega)]

theorem unzigzag_zigzag (w : Nat) (hw : 0 < w) (v : Int)
    (hlo : -((2 ^ (w - 1) : Nat) : Int) ≤ v) (hhi : v < ((2 ^ (w - 1) : Nat) : Int)) :
    unzigzag (zigzag w v) = v ∧ zigzag w v < 2 ^ w := by
  have hWpos : (0 : Nat) < 2 ^ w := Nat.two_pow_pos w
  have hW : (2 : Nat) ^ w = 2 * 2 ^ (w - 1) := by
    calc (2 : Nat) ^ w = 2 ^ (w - 1 + 1) := by congr 1; omega
      _ = 2 * 2 ^ (w - 1) := by rw [Nat.pow_succ]; ring
  have hp : (0 : Nat) < 2 ^ (w - 1) := Nat.two_pow_pos (w - 1)
  by_cases hneg : v < 0
  · have hm2 : toUnsigned w (-1) = 2 ^ w - 1 := by
      rw [toUnsigned_of_neg w (-1) (by omega) (by omega)]
      omega
    have ha : toUnsigned w (2 * v) = (2 * v + (2 ^ w : Nat)).toNat := by
      apply toUnsigned_of_neg w (2 * v) (by omega) (by omega)
    have haval : toUnsigned w (2 * v) = 2 ^ w - 2 * (-v).toNat := by
      rw [ha]; omega
    have halt : toUnsigned w (2 * v) < 2 ^ w := toUnsigned_lt w (2 * v)
    have hxor : zigzag w v = 2 ^ w - 1 - (2 ^ w - 2 * (-v).toNat) := by
      unfold zigzag
      rw [if_pos hneg, hm2, haval, xor_ones w _ (by omega)]
    have hmlb : 1 ≤ (-v).toNat := by omega
    have hmub : (-v).toNat ≤ 2 ^ (w - 1) := by omega
    have hval : zigzag w v = 2 * (-v).toNat - 1 := by omega
    constructor
    · unfold unzigzag
      rw [hval, if_neg (by omega)]
      have : (2 * (-v).toNat - 1) / 2 = (-v).toNat - 1 := by omega
      rw [this]
      omega
    · omega
  · have h0 : 0 ≤ v := by omega
    have hz : toUnsigned w 0 = 0 := by
      rw [toUnsigned_of_nonneg w 0 le_rfl (by exact_mod_cast Nat.two_pow_pos w)]
      rfl
    have ha : toUnsigned w (2 * v) = (2 * v).toNat := by
      apply toUnsigned_of_nonneg w (2 * v) (by omega)
      omega
    have hval : zigzag w v = 2 * v.toNat := by
      unfold zigzag
      rw [if_neg hneg, hz, ha, Nat.xor_zero]
      omega
    constructor
    · unfold unzigzag
      rw [hval, if_pos (by omega)]
      omega
    · rw [hval]
      omega

theorem ofUnsigned_toUnsigned (w : Nat) (hw : 0 < w) (v : Int)
    (hlo : -((2 ^ (w - 1) : Nat) : Int) ≤ v) (hhi : v < ((2 ^ (w - 1) : Nat) : Int)) :
    ofUnsigned w (toUnsigned w v) = v := by
  have hWpos : (0 : Nat) < 2 ^ w := Nat.two_pow_pos w
  have hW : (2 : Nat) ^ w = 2 * 2 ^ (w - 1) := by
    calc (2 : Nat) ^ w = 2 ^ (w - 1 + 1) := by congr 1; omega
      _ = 2 * 2 ^ (w - 1) := by rw [Nat.pow_succ]; ring
  have hp : (0 : Nat) < 2 ^ (w - 1) := Nat.two_pow_pos (w - 1)
  unfold ofUnsigned
  have hcast : ((2 : Int) ^ w) = ((2 ^ w : Nat) : Int) := by push_cast; ring
  by_cases hneg : v < 0
  · have ha : toUnsigned w v = (v + (2 ^ w : Nat)).toNat := by
      apply toUnsigned_of_neg w v (by omega) hneg
    rw [ha, if_neg (by omega), hcast]
    omega
  · have ha : toUnsigned w v = v.toNat := by
      apply toUnsigned_of_nonneg w v (by omega)
      omega
    rw [ha, if_pos (by omega)]
    omega

end Arken

namespace Arken

theorem natBytes_length (e : Endian) (n v : Nat) : (natBytes e n v).length = n := by
  cases e <;> simp [natBytes, leBytes_length]

theorem natOfBytes_natBytes_pow2 (e : Endian) (n v : Nat) (h : v < 2 ^ (8 * n)) :
    natOfBytes e (natBytes e n v) = v := by
  apply natOfBytes_natBytes
  calc v < 2 ^ (8 * n) := h
    _ = 256 ^ n := by rw [Nat.pow_mul]

theorem unsignedFromSlice_putUnsigned (cfg : Config) (n v : Nat) (hn : 0 < n)
    (h : v < 2 ^ (8 * n)) :
    unsignedFromSlice cfg n (putUnsigned cfg n v) = .ok (v, []) := by
  unfold unsignedFromSlice putUnsigned
  by_cases hf : cfg.fixed
  · rw [if_pos hf, if_pos hf,
      if_neg (by rw [natBytes_length]; omega)]
    rw [List.take_of_length_le (by rw [natBytes_length]),
      List.drop_eq_nil_of_le (by rw [natBytes_length]),
      natOfBytes_natBytes_pow2 cfg.endian n v h]
  · rw [if_neg hf, if_neg hf]
    have := decodeUVar_putUVar (8 * n) v 0 0 [] (by simpa using h)
    rw [List.append_nil] at this
    simpa using this

theorem signedFromSlice_putSigned (cfg : Config) (n : Nat) (v : Int) (hn : 0 < n)
    (hlo : -((2 ^ (8 * n - 1) : Nat) : Int) ≤ v)
    (hhi : v < ((2 ^ (8 * n - 1) : Nat) : Int)) :
    signedFromSlice cfg n (putSigned cfg n v) = .ok (v, []) := by
  have hw : 0 < 8 * n := by omega
  unfold signedFromSlice putSigned
  by_cases hf : cfg.fixed
  · rw [if_pos hf, if_pos hf,
      if_neg (by rw [natBytes_length]; omega)]
    rw [List.take_of_length_le (by rw [natBytes_length]),
      List.drop_eq_nil_of_le (by rw [natBytes_length]),
      natOfBytes_natBytes_pow2 cfg.endian n _ (toUnsigned_lt (8 * n) v),
      ofUnsigned_toUnsigned (8 * n) hw v hlo hhi]
  · rw [if_neg hf, if_neg hf]
    obtain ⟨hz1, hz2⟩ := unzigzag_zigzag (8 * n) hw v hlo hhi
    have := decodeUVar_putUVar (8 * n) (zigzag (8 * n) v) 0 0 [] (by simpa using hz2)
    rw [List.append_nil] at this
    rw [this]
    simp [hz1]

/-- **C3.** For every integer width of the Codec (`n` bytes, `n > 0`, covering
the 16/32/64/128-bit and word-sized types), every value in range, and every
config combination of a width policy with a Big or Little endian, decoding
the bytes produced by encoding the value yields the value back together with
the empty remainder: `unsigned_from_slice(put_bytes(v)) = (v, [])` and
likewise for the signed zig-zag/fixed encodings of `src/signed.rs`. -/
theorem c3_integer_roundtrip (fixed : Bool) (e : Endian) (he : e ≠ .native)
    (n : Nat) (hn : 0 < n) :
    (∀ v : Nat, v < 2 ^ (8 * n) →
      unsignedFromSlice ⟨fixed, e⟩ n (putUnsigned ⟨fixed, e⟩ n v) = .ok (v, [])) ∧
    (∀ v : Int, -((2 ^ (8 * n - 1) : Nat) : Int) ≤ v →
        v < ((2 ^ (8 * n - 1) : Nat) : Int) →
      signedFromSlice ⟨fixed, e⟩ n (putSigned ⟨fixed, e⟩ n v) = .ok (v, [])) := by
  constructor
  · intro v hv
    exact unsignedFromSlice_putUnsigned ⟨fixed, e⟩ n v hn hv
  · intro v hlo hhi
    exact signedFromSlice_putSigned ⟨fixed, e⟩ n v hn hlo hhi

/-- Witness for C3: the round trip evaluated at `u16`-style width 2, variable
and fixed width, both endians, at concrete values. -/
theorem c3_integer_roundtrip_witness :
    unsignedFromSlice ⟨false, .little⟩ 2 (putUnsigned ⟨false, .little⟩ 2 300) = .ok (300, []) ∧
    signedFromSlice ⟨true, .big⟩ 2 (putSigned ⟨true, .big⟩ 2 (-300)) = .ok (-300, []) :=
  ⟨(c3_integer_roundtrip false .little (by decide) 2 (by decide)).1 300 (by decide),
   (c3_integer_roundtrip true .big (by decide) 2 (by decide)).2 (-300) (by decide) (by decide)⟩

end Arken

namespace Arken

theorem group_mod_step (w s x D : Nat) (hx : x < 0x80) (hs : s + 7 ≤ w) :
    x * 2 ^ s + D * 2 ^ (s + 7) % 2 ^ w = (x + 0x80 * D) * 2 ^ s % 2 ^ w := by
  have h80 : (0x80 : Nat) = 2 ^ 7 := by norm_num
  have hsplit : (2 : Nat) ^ w = 2 ^ (s + 7) * 2 ^ (w - (s + 7)) := by
    rw [← Nat.pow_add]; congr 1; omega
  have hApos : (0 : Nat) < 2 ^ (s + 7) := Nat.two_pow_pos _
  have hBpos : (0 : Nat) < 2 ^ (w - (s + 7)) := Nat.two_pow_pos _
  have hr : D * 2 ^ (s + 7) % 2 ^ w = 2 ^ (s + 7) * (D % 2 ^ (w - (s + 7))) := by
    rw [hsplit, Nat.mul_comm D, Nat.mul_mod_mul_left]
  have hDm : D % 2 ^ (w - (s + 7)) ≤ 2 ^ (w - (s + 7)) - 1 := by
    have := Nat.mod_lt D hBpos
    omega
  have hrle : 2 ^ (s + 7) * (D % 2 ^ (w - (s + 7))) ≤ 2 ^ w - 2 ^ (s + 7) := by
    calc 2 ^ (s + 7) * (D % 2 ^ (w - (s + 7)))
        ≤ 2 ^ (s + 7) * (2 ^ (w - (s + 7)) - 1) := Nat.mul_le_mul_left _ hDm
      _ = 2 ^ (s + 7) * 2 ^ (w - (s + 7)) - 2 ^ (s + 7) := by
          rw [Nat.mul_sub_one]
      _ = 2 ^ w - 2 ^ (s + 7) := by rw [← hsplit]
  have hxlt : x * 2 ^ s < 2 ^ (s + 7) := by
    calc x * 2 ^ s < 0x80 * 2 ^ s :=
          (Nat.mul_lt_mul_right (Nat.two_pow_pos s)).mpr hx
      _ = 2 ^ (s + 7) := by rw [h80, ← Nat.pow_add]; congr 1; omega
  have hWA : 2 ^ (s + 7) ≤ 2 ^ w := Nat.pow_le_pow_right (by omega) hs
  have hring : (x + 0x80 * D) * 2 ^ s = x * 2 ^ s + D * 2 ^ (s + 7) := by
    rw [h80, Nat.pow_add]; ring
  rw [hring, Nat.add_mod, hr, Nat.mod_eq_of_lt (show x * 2 ^ s < 2 ^ w by omega),
    Nat.mod_eq_of_lt (show x * 2 ^ s + 2 ^ (s + 7) * (D % 2 ^ (w - (s + 7))) < 2 ^ w by omega)]

theorem decodeUVar_groups (w : Nat) :
    ∀ (conts : List Nat) (lastb : Nat) (rest : List Nat) (shift acc : Nat),
      (∀ b ∈ conts, 0x80 ≤ b) → lastb < 0x80 →
      shift + 7 * conts.length ≤ w →
      decodeUVar w (conts ++ lastb :: rest) shift acc =
        .ok (acc + lebDenote (conts ++ [lastb]) * 2 ^ shift % 2 ^ w, rest) := by
  intro conts
  induction conts with
  | nil =>
    intro lastb rest shift acc _ hlast hle
    simp only [List.nil_append, decodeUVar, lebDenote, if_pos hlast,
      Nat.mod_eq_of_lt hlast]
  | cons b bs ih =>
    intro lastb rest shift acc hmem hlast hle
    have hb : 0x80 ≤ b := hmem b (List.mem_cons_self b bs)
    have hlen : shift + 7 * (b :: bs).length = shift + 7 + 7 * bs.length := by
      simp [List.length_cons]; ring
    have hxlt : b % 0x80 * 2 ^ shift < 2 ^ w := by
      calc b % 0x80 * 2 ^ shift < 0x80 * 2 ^ shift :=
            (Nat.mul_lt_mul_right (Nat.two_pow_pos shift)).mpr (Nat.mod_lt b (by omega))
        _ = 2 ^ (shift + 7) := by
            rw [show (0x80 : Nat) = 2 ^ 7 by norm_num, ← Nat.pow_add]
            congr 1
            omega
        _ ≤ 2 ^ w := Nat.pow_le_pow_right (by omega) (by omega)
    have hrec := ih lastb rest (shift + 7) (acc + b % 0x80 * 2 ^ shift)
      (fun x hx => hmem x (List.mem_cons_of_mem b hx)) hlast (by omega)
    rw [List.cons_append]
    simp only [decodeUVar, if_neg (show ¬ b < 0x80 by omega),
      if_neg (show ¬ w < shift + 7 by omega), Nat.mod_eq_of_lt hxlt, hrec]
    congr 2
    have hden : lebDenote (b :: bs ++ [lastb])
        = b % 0x80 + 0x80 * lebDenote (bs ++ [lastb]) := by
      simp [lebDenote, if_neg (show ¬ b < 0x80 by omega)]
    rw [hden, ← group_mod_step w shift (b % 0x80) (lebDenote (bs ++ [lastb]))
      (Nat.mod_lt b (by omega)) (by omega)]
    omega

theorem decodeUVar_conts_overflow (w : Nat) :
    ∀ (conts : List Nat) (rest : List Nat) (shift acc : Nat),
      (∀ b ∈ conts, 0x80 ≤ b) → shift ≤ w → w < shift + 7 * conts.length →
      decodeUVar w (conts ++ rest) shift acc = .error .overflow := by
  intro conts
  induction conts with
  | nil =>
    intro rest shift acc _ hle hgt
    simp at hgt
    omega
  | cons b bs ih =>
    intro rest shift acc hmem hle hgt
    have hb : 0x80 ≤ b := hmem b (List.mem_cons_self b bs)
    rw [List.cons_append]
    simp only [decodeUVar, if_neg (show ¬ b < 0x80 by omega)]
    by_cases hover : w < shift + 7
    · rw [if_pos hover]
    · rw [if_neg hover]
      apply ih rest (shift + 7) _ (fun x hx => hmem x (List.mem_cons_of_mem b hx))
        (by omega)
      simp only [List.length_cons] at hgt
      omega

/-- **C7 counterexample.** The bytes `[0x80, 0x80, 0x04]` denote the value
`2 ^ 16 = 65536`, which does not fit in a `u16`; the claim says decoding them
as `u16` must fail with `Overflow`, but `from_slice` succeeds and silently
returns the truncated value `0` (the final group `4 << 14` is computed in
`u16` and its high bits are discarded). -/
theorem c7_counterexample :
    unsignedFromSlice ⟨false, .little⟩ 2 [0x80, 0x80, 0x04] = .ok (0, []) ∧
    lebDenote [0x80, 0x80, 0x04] = 2 ^ 16 := by
  constructor
  · rfl
  · decide

/-- **C7 amended.** Variable-length decode of a `w`-bit unsigned integer
fails with `Overflow` exactly when the shift would exceed the target width,
i.e. when the input has more than `⌊w / 7⌋` continuation bytes; an encoding
within that limit is accepted and yields the denoted value *reduced modulo*
`2 ^ w` — an over-wide value inside the group limit is silently truncated,
not rejected. -/
theorem c7_overflow_semantics (w : Nat) (hw : 0 < w) :
    (∀ conts lastb rest, (∀ b ∈ conts, 0x80 ≤ b) → lastb < 0x80 →
      7 * conts.length ≤ w →
      decodeUVar w (conts ++ lastb :: rest) 0 0 =
        .ok (lebDenote (conts ++ [lastb]) % 2 ^ w, rest)) ∧
    (∀ conts rest, (∀ b ∈ conts, 0x80 ≤ b) → w < 7 * conts.length →
      decodeUVar w (conts ++ rest) 0 0 = .error .overflow) := by
  constructor
  · intro conts lastb rest hmem hlast hle
    have := decodeUVar_groups w conts lastb rest 0 0 hmem hlast (by omega)
    simpa using this
  · intro conts rest hmem hgt
    exact decodeUVar_conts_overflow w conts rest 0 0 hmem (by omega) (by omega)

/-- Witness for the amended C7: at width 16, two continuation bytes plus a
final group decode to the value mod `2 ^ 16`, and three continuation bytes
overflow. -/
theorem c7_overflow_semantics_witness :
    decodeUVar 16 [0x81, 0x80, 0x04] 0 0 = .ok (1, []) ∧
    decodeUVar 16 [0x80, 0x80, 0x80, 0x01] 0 0 = .error .overflow := by
  have h := c7_overflow_semantics 16 (by decide)
  constructor
  · have h1 := h.1 [0x81, 0x80] 0x04 [] (by decide) (by decide) (by decide)
    simpa using h1
  · have h2 := h.2 [0x80, 0x80, 0x80] [0x01] (by decide) (by decide)
    simpa using h2

end Arken

namespace LSM

/-- **C1 (code bug).** Evaluation of `MergeMap::commit` at the failing
input: open an empty file, `insert 1 10`, `commit`.  The memtable is
drained in order (`kv` record at offset 0) and collected into a new `node`
record at offset 1, but the `Root` record emitted at offset 2 — the one the
returned reference `some 2` points at — has `nodes = []`: the prior root's
nodes list with the new node's reference appended would be `[1]`.  The
local `nodes` vector built by the source is dead code, and the committed
entry `(1, 10)` is unreachable from the returned root. -/
theorem c1_commit_drops_node :
    (commit (insert (openMap ([] : File Nat Nat) none) 1 10)).1.file =
      [Rec.kv 1 (some 10), Rec.node [0], Rec.root [] 1] ∧
    (commit (insert (openMap ([] : File Nat Nat) none) 1 10)).2 = some 2 ∧
    readRootRec (commit (insert (openMap ([] : File Nat Nat) none) 1 10)).1.file 2 =
      some ⟨[], 1⟩ := by
  refine ⟨?_, ?_, ?_⟩ <;> rfl

/-- **C8 (code bug).** Evaluation of the newest-wins claim at the failing
input: after `insert 1 10` and a `commit` (values `v1 = 10`, `n = 1`),
`get 1` should return `10` and the iterator should yield `(1, 10)` once.
Instead `get` returns `none` and the iterator is empty — both on the same
map instance after the commit and on a map reopened with the root reference
the commit returned — because the emitted root does not reference the newly
written run. -/
theorem c8_newest_wins_fails :
    get (commit (insert (openMap ([] : File Nat Nat) none) 1 10)).1 1 = none ∧
    iterList (commit (insert (openMap ([] : File Nat Nat) none) 1 10)).1 = [] ∧
    get (openMap (commit (insert (openMap ([] : File Nat Nat) none) 1 10)).1.file
      (commit (insert (openMap ([] : File Nat Nat) none) 1 10)).2) 1 = none ∧
    iterList (openMap (commit (insert (openMap ([] : File Nat Nat) none) 1 10)).1.file
      (commit (insert (openMap ([] : File Nat Nat) none) 1 10)).2) = [] := by
  refine ⟨?_, ?_, ?_, ?_⟩ <;> rfl

end LSM

namespace HAMT

/-- **C2 (code bug).** Evaluation of the HAMT structural invariant at the
failing input: with the identity hash, `insert 0 100; commit`, reopen on
the returned root, `insert 0 200; commit`.  The second commit persists the
root `Node` record (offset 4) as `node 1 [3, 0] 0 []`: its `value_mask` has
popcount 1 but its `values` array has length 2 — replacing a disk value
neither clears the disk bit nor removes the stale reference, and commit
inserts the new reference in front of it.  The claimed equality
`|values| = popcount(value_mask)` fails for this persisted node. -/
theorem c2_persisted_node_breaks_invariant :
    (commit (insert (fun k => k)
        (openMap
          (commit ((insert (fun k => k)
            (openMap ([] : HFile Nat Nat) none) 0 100).1)).1.file
          (commit ((insert (fun k => k)
            (openMap ([] : HFile Nat Nat) none) 0 100).1)).2)
        0 200).1).1.file.get? 4 =
      some (HRec.node 1 [3, 0] 0 []) ∧
    popcount 1 = 1 ∧ ([3, 0] : List Nat).length = 2 := by
  refine ⟨?_, ?_, ?_⟩ <;> rfl

end HAMT

namespace Arken

/-- **C4 (code bug).** `Config::put_bytes` does produce `'A' 'R' 'K' b`
with `b = endian_code | (fixed << 7)` — but decoding those four bytes does
*not* succeed for a fixed-width config: `from_slice` feeds the whole flag
byte to `Endian::try_from` instead of `b & 0x7F`, so `b = 0x81`
(fixed, Little) is rejected with `InvalidHeader`.  Only variable-width
headers round-trip. -/
theorem c4_header_decode_rejects_fixed :
    configPutBytes ⟨true, .little⟩ = [65, 82, 75, 0x81] ∧
    configFromSlice [65, 82, 75, 0x81] = .error .invalidHeader ∧
    configFromSlice (configPutBytes ⟨false, .little⟩) = .ok (⟨false, .little⟩, []) ∧
    configFromSlice (configPutBytes ⟨false, .big⟩) = .ok (⟨false, .big⟩, []) := by
  refine ⟨?_, ?_, ?_, ?_⟩ <;> rfl

set_option maxRecDepth 200000 in
/-- **C5 counterexample.** In the S5 scenario — "first" and "second" both
stamped with marker `b"msg"`, then the last 4 bytes zeroed — the claim says
the reverse scan yields the older intact record "first" as its first
result.  It does not: `MarkerIter::next` returns `None` at the corrupted
trailer (`if crc32fast::hash(slice) != checksum { return None; }`). -/
theorem c5_counterexample :
    (markerNext strFromSlice (findIter s5Corrupted s5Config s5Marker)).map
        Prod.fst ≠ some [102, 105, 114, 115, 116] ∧
    (markerNext strFromSlice (findIter s5Corrupted s5Config s5Marker)) = none := by
  constructor
  · intro h
    have : (none : Option (List Nat)) = some [102, 105, 114, 115, 116] := by
      rw [← h]
      rfl
    exact Option.noConfusion this
  · rfl

set_option maxRecDepth 200000 in
/-- **C5 amended.** A corrupted trailer causes the reverse marker scan to
*terminate*: on the corrupted S5 file, `find(b"msg")` yields nothing at
all — it does not skip to the prior valid marker.  On the intact file the
same scan yields "second" and then "first", newest first. -/
theorem c5_scan_terminates_on_corruption :
    (markerNext strFromSlice (findIter s5Corrupted s5Config s5Marker)) = none ∧
    (markerNext strFromSlice (findIter s5File2 s5Config s5Marker)).map
        Prod.fst = some [115, 101, 99, 111, 110, 100] ∧
    (match markerNext strFromSlice (findIter s5File2 s5Config s5Marker) with
      | some (_, st) => (markerNext strFromSlice st).map Prod.fst
      | none => none) = some [102, 105, 114, 115, 116] := by
  refine ⟨?_, ?_, ?_⟩ <;> rfl

/-- **C9 (code bug).** The three sequence decoders are not total: each of
these truncated inputs makes the Rust code panic rather than return an
error — `Cow<[u16]>` unwraps a failed element decode after the declared
length 1, `Array<T>` indexes `&slice[..5]` with no bytes left, and
`Cow<[u16; 1]>` unwraps inside `array::from_fn` on empty input. -/
theorem c9_sequence_decoders_crash :
    cowSliceFromSlice (unsignedFromSlice ⟨false, .little⟩ 2) ⟨false, .little⟩
        [0x01] = .crashed ∧
    rawArrayFromSlice ⟨false, .little⟩ [0x05] = .crashed ∧
    cowArrayFromSlice (unsignedFromSlice ⟨false, .little⟩ 2) 1 [] = .crashed := by
  refine ⟨?_, ?_, ?_⟩ <;> rfl

end Arken

namespace Trigram

/-- **C6 (code bug).** Evaluation at the failing input: `insert "abc" 1`
then `insert "abc" 2`.  After the first insert `get "abc" = some 1` and the
single trigram's postings hold `{"abc", 1}` — but the second insert, the
"key was already indexed" case of the claim, only removes the old entry
and returns it: afterwards `get "abc" = none` instead of `some 2`, and the
trigram's postings entry is gone rather than replaced. -/
theorem c6_insert_existing_key_drops_value :
    Trigram.get ((Trigram.insert (LSM.openMap [] none : TrigramMap Nat)
        [97, 98, 99] 1).1) [97, 98, 99] = some 1 ∧
    (Trigram.insert ((Trigram.insert (LSM.openMap [] none : TrigramMap Nat)
        [97, 98, 99] 1).1) [97, 98, 99] 2).2 = some 1 ∧
    Trigram.get (Trigram.insert ((Trigram.insert
        (LSM.openMap [] none : TrigramMap Nat) [97, 98, 99] 1).1)
        [97, 98, 99] 2).1 [97, 98, 99] = none := by
  refine ⟨?_, ?_, ?_⟩ <;> rfl

end Trigram

namespace LSM

section IterProofs

variable {K V : Type} [LinearOrder K]

theorem mem_heapPush (h : List (Elt K V)) (e x : Elt K V) :
    x ∈ heapPush h e ↔ x ∈ h ∨ x = e := by
  induction h with
  | nil => simp [heapPush]
  | cons y ys ih =>
    simp only [heapPush]
    by_cases hc : e.key < y.key
    · rw [if_pos hc]
      simp only [List.mem_cons]
      tauto
    · rw [if_neg hc]
      simp only [List.mem_cons, ih]
      tauto

theorem pairwise_heapPush (h : List (Elt K V)) (e : Elt K V)
    (hs : List.Pairwise (fun a b : Elt K V => a.key ≤ b.key) h) :
    List.Pairwise (fun a b : Elt K V => a.key ≤ b.key) (heapPush h e) := by
  induction h with
  | nil => simp [heapPush]
  | cons y ys ih =>
    rw [List.pairwise_cons] at hs
    simp only [heapPush]
    by_cases hc : e.key < y.key
    · rw [if_pos hc]
      refine List.Pairwise.cons ?_ (List.Pairwise.cons hs.1 hs.2)
      intro z hz
      rcases List.mem_cons.mp hz with rfl | hz
      · exact hc.le
      · exact hc.le.trans (hs.1 z hz)
    · rw [if_neg hc]
      refine List.Pairwise.cons ?_ (ih hs.2)
      intro z hz
      rcases (mem_heapPush ys e z).mp hz with hz | rfl
      · exact hs.1 z hz
      · exact not_lt.mp hc

theorem sum_map_heapPush (f : Elt K V → Nat) (h : List (Elt K V)) (e : Elt K V) :
    ((heapPush h e).map f).sum = f e + (h.map f).sum := by
  induction h with
  | nil => simp [heapPush]
  | cons y ys ih =>
    simp only [heapPush]
    by_cases hc : e.key < y.key
    · rw [if_pos hc]
      simp [List.map_cons]
    · rw [if_neg hc]
      simp [List.map_cons, ih]
      omega

theorem countP_heapPush (p : Elt K V → Bool) (h : List (Elt K V)) (e : Elt K V) :
    (heapPush h e).countP p = h.countP p + (if p e then 1 else 0) := by
  induction h with
  | nil => simp [heapPush, List.countP_cons]
  | cons y ys ih =>
    simp only [heapPush]
    by_cases hc : e.key < y.key
    · rw [if_pos hc]
      simp only [List.countP_cons]
    · rw [if_neg hc]
      simp only [List.countP_cons, ih]
      omega

theorem runEntry_lt_runLen (s : MergeMap K V) (t i : Nat) (x : K × Option V)
    (h : runEntry s t i = some x) : i < runLen s t := by
  unfold runEntry at h
  rw [Option.bind_eq_some] at h
  obtain ⟨values, hrv, h⟩ := h
  rw [Option.bind_eq_some] at h
  obtain ⟨vr, hvr, _⟩ := h
  unfold runLen
  rw [hrv]
  simp
  by_contra hge
  rw [List.get?_eq_none.mpr (by omega)] at hvr
  exact Option.noConfusion hvr

theorem runEntry_lt_runCount (s : MergeMap K V) (t i : Nat) (x : K × Option V)
    (h : runEntry s t i = some x) : t < runCount s := by
  unfold runEntry at h
  rw [Option.bind_eq_some] at h
  obtain ⟨values, hrv, _⟩ := h
  unfold runValues at hrv
  rw [Option.bind_eq_some] at hrv
  obtain ⟨rr, hrr, hrv⟩ := hrv
  rw [Option.bind_eq_some] at hrv
  obtain ⟨root, hroot, hrv⟩ := hrv
  rw [Option.bind_eq_some] at hrv
  obtain ⟨nr, hnr, _⟩ := hrv
  unfold runCount
  rw [hrr]
  simp [hroot]
  by_contra hge
  rw [List.get?_eq_none.mpr (by omega)] at hnr
  exact Option.noConfusion hnr

theorem sorted_runEntry_step (s : MergeMap K V) (hs : sortedState s)
    (t i : Nat) (e1 e2 : K × Option V)
    (h1 : runEntry s t i = some e1) (h2 : runEntry s t (i + 1) = some e2) :
    e1.1 < e2.1 := by
  have ht := runEntry_lt_runCount s t i e1 h1
  have hi := runEntry_lt_runLen s t i e1 h1
  have hb := hs.2 t ht i hi
  rw [h1, h2] at hb
  simpa [entryLtB] using hb

theorem eltPot_mono (s : MergeMap K V) (m1 m2 : Nat) (e : Elt K V)
    (h : m1 ≤ m2) : eltPot s m1 e ≤ eltPot s m2 e := by
  cases ht : e.table <;> simp [eltPot, ht] <;> omega

theorem eltPot_pos (s : MergeMap K V) (m : Nat) (e : Elt K V) :
    1 ≤ eltPot s m e := by
  cases ht : e.table <;> simp [eltPot, ht] <;> omega

theorem sum_eltPot_mono (s : MergeMap K V) (m1 m2 : Nat)
    (h : m1 ≤ m2) (l : List (Elt K V)) :
    (l.map (eltPot s m1)).sum ≤ (l.map (eltPot s m2)).sum := by
  induction l with
  | nil => simp
  | cons y ys ih =>
    simp only [List.map_cons, List.sum_cons]
    have := eltPot_mono s m1 m2 y h
    omega

theorem pot_pushSucc (s : MergeMap K V) (e : Elt K V) (rest : List (Elt K V))
    (mr : List (K × Option V)) :
    pot s (pushSucc s e ⟨rest, mr⟩) < pot s ⟨e :: rest, mr⟩ := by
  cases hte : e.table with
  | none =>
    cases mr with
    | nil =>
      have hpos := eltPot_pos s 0 e
      simp only [pushSucc, hte, pot, List.map_cons, List.sum_cons, List.length_nil]
      omega
    | cons hd tl =>
      simp only [pushSucc, hte, pot]
      rw [sum_map_heapPush]
      have h4 : eltPot s tl.length (⟨hd.1, hd.2, none, e.next + 1⟩ : Elt K V)
          = 1 + tl.length := by
        simp [eltPot]
      have h2 : eltPot s (tl.length + 1) e = 2 + tl.length := by
        simp [eltPot, hte]
        omega
      have h3 := sum_eltPot_mono s tl.length (tl.length + 1) (by omega) rest
      simp only [List.map_cons, List.sum_cons, List.length_cons]
      rw [h4, h2]
      omega
  | some t =>
    have hpos := eltPot_pos s mr.length e
    cases hre : runEntry s t (e.next + 1) with
    | none =>
      simp only [pushSucc, hte, hre, pot, List.map_cons, List.sum_cons]
      omega
    | some p =>
      obtain ⟨k, v⟩ := p
      have hlt := runEntry_lt_runLen s t (e.next + 1) (k, v) hre
      have hlen : e.next + 1 < runLen s t := by
        unfold runLen
        unfold runLen at hlt
        omega
      simp only [pushSucc, hte, hre, pot]
      rw [sum_map_heapPush]
      have h1 : eltPot s mr.length (⟨k, v, some t, e.next + 1⟩ : Elt K V)
          = 1 + (runLen s t - (e.next + 2)) := by
        simp [eltPot]
      have h2 : eltPot s mr.length e = 1 + (runLen s t - (e.next + 1)) := by
        simp [eltPot, hte]
      simp only [List.map_cons, List.sum_cons]
      rw [h1, h2]
      omega

theorem obelow_trans (b : Option K) (k1 k2 : K)
    (h1 : obelow b k1) (h2 : k1 < k2) : obelow b k2 := by
  cases b with
  | none => trivial
  | some x => exact lt_trans h1 h2

theorem countP_none_unique (e : Elt K V) (rest : List (Elt K V))
    (he : e.table = none)
    (hcnt : (e :: rest).countP (fun x => x.table.isNone) ≤ 1) :
    ∀ x ∈ rest, x.table ≠ none := by
  intro x hx hxt
  rw [List.countP_cons] at hcnt
  have hpe : (fun x : Elt K V => x.table.isNone) e = true := by simp [he]
  rw [if_pos hpe] at hcnt
  have hz := List.countP_eq_zero.mp
    (by omega : rest.countP (fun x : Elt K V => x.table.isNone) = 0)
  exact hz x hx (by simp [hxt])

theorem iterInv_pushSucc (s : MergeMap K V) (hs : sortedState s)
    (e : Elt K V) (rest : List (Elt K V)) (mr : List (K × Option V))
    (hinv : iterInv s ⟨e :: rest, mr⟩) :
    iterInv s (pushSucc s e ⟨rest, mr⟩) ∧
    ∀ x ∈ (pushSucc s e ⟨rest, mr⟩).heap, e.key ≤ x.key := by
  obtain ⟨hpw, hrun, hmem, hcnt⟩ := hinv
  simp only at hpw hrun hmem hcnt
  rw [List.pairwise_cons] at hpw
  cases hte : e.table with
  | none =>
    have hnone := countP_none_unique e rest hte hcnt
    have hchain := hmem e (List.mem_cons_self e rest) hte
    cases mr with
    | nil =>
      simp only [pushSucc, hte]
      refine ⟨⟨hpw.2, ?_, ?_, ?_⟩, ?_⟩
      · intro x hx t hxt
        exact hrun x (List.mem_cons_of_mem e hx) t hxt
      · intro x hx hxt
        exact absurd hxt (hnone x hx)
      · rw [List.countP_cons, if_pos (by simp [hte])] at hcnt
        show rest.countP (fun e => e.table.isNone) ≤ 1
        omega
      · intro x hx
        exact hpw.1 x hx
    | cons hd tl =>
      obtain ⟨k0, v0⟩ := hd
      simp only [pushSucc, hte]
      rw [List.map_cons] at hchain
      have hlt0 : e.key < k0 := (List.chain'_cons.mp hchain).1
      refine ⟨⟨?_, ?_, ?_, ?_⟩, ?_⟩
      · exact pairwise_heapPush rest _ hpw.2
      · intro x hx t hxt
        rcases (mem_heapPush rest _ x).mp hx with hx | rfl
        · exact hrun x (List.mem_cons_of_mem e hx) t hxt
        · exact absurd hxt (by simp)
      · intro x hx hxt
        rcases (mem_heapPush rest _ x).mp hx with hx | rfl
        · exact absurd hxt (hnone x hx)
        · exact hchain.tail
      · rw [countP_heapPush]
        rw [List.countP_cons, if_pos (by simp [hte])] at hcnt
        simp only
        rw [if_pos (by simp)]
        omega
      · intro x hx
        rcases (mem_heapPush rest _ x).mp hx with hx | rfl
        · exact hpw.1 x hx
        · exact le_of_lt hlt0
  | some t0 =>
    have hre0 := hrun e (List.mem_cons_self e rest) t0 hte
    cases hre : runEntry s t0 (e.next + 1) with
    | none =>
      simp only [pushSucc, hte, hre]
      refine ⟨⟨hpw.2, ?_, ?_, ?_⟩, ?_⟩
      · intro x hx t hxt
        exact hrun x (List.mem_cons_of_mem e hx) t hxt
      · intro x hx hxt
        exact hmem x (List.mem_cons_of_mem e hx) hxt
      · rw [List.countP_cons] at hcnt
        show rest.countP (fun e => e.table.isNone) ≤ 1
        omega
      · intro x hx
        exact hpw.1 x hx
    | some p =>
      obtain ⟨k1, v1⟩ := p
      have hstep := sorted_runEntry_step s hs t0 e.next (e.key, e.value) (k1, v1) hre0 hre
      simp only [pushSucc, hte, hre]
      refine ⟨⟨?_, ?_, ?_, ?_⟩, ?_⟩
      · exact pairwise_heapPush rest _ hpw.2
      · intro x hx t hxt
        rcases (mem_heapPush rest _ x).mp hx with hx | rfl
        · exact hrun x (List.mem_cons_of_mem e hx) t hxt
        · simp only at hxt
          cases hxt
          exact hre
      · intro x hx hxt
        rcases (mem_heapPush rest _ x).mp hx with hx | rfl
        · exact hmem x (List.mem_cons_of_mem e hx) hxt
        · exact absurd hxt (by simp)
      · rw [countP_heapPush]
        rw [List.countP_cons] at hcnt
        simp only
        rw [if_neg (by simp)]
        omega
      · intro x hx
        rcases (mem_heapPush rest _ x).mp hx with hx | rfl
        · exact hpw.1 x hx
        · exact le_of_lt hstep

theorem drainEqF_spec (s : MergeMap K V) (hs : sortedState s) :
    ∀ (fuel : Nat) (key : K) (v : Option V) (st : IterSt K V),
    iterInv s st →
    (∀ x ∈ st.heap, key ≤ x.key) →
    pot s st < fuel →
    iterInv s (drainEqF s fuel key v st).2 ∧
    (∀ x ∈ (drainEqF s fuel key v st).2.heap, key < x.key) ∧
    pot s (drainEqF s fuel key v st).2 ≤ pot s st := by
  intro fuel
  induction fuel with
  | zero =>
    intro key v st _ _ hfuel
    exact absurd hfuel (by omega)
  | succ fuel ih =>
    intro key v st hinv hge hfuel
    obtain ⟨heap, mr⟩ := st
    cases heap with
    | nil =>
      simp only [drainEqF]
      refine ⟨hinv, ?_, le_refl _⟩
      intro x hx
      simp at hx
    | cons e rest =>
      simp only [drainEqF]
      by_cases hk : e.key = key
      · rw [if_pos hk]
        obtain ⟨hinv1, hbd1⟩ := iterInv_pushSucc s hs e rest mr hinv
        have hpot1 := pot_pushSucc s e rest mr
        have hge1 : ∀ x ∈ (pushSucc s e ⟨rest, mr⟩).heap, key ≤ x.key := by
          intro x hx
          exact hk ▸ hbd1 x hx
        have hfuel1 : pot s (pushSucc s e ⟨rest, mr⟩) < fuel := by omega
        obtain ⟨ha, hb, hc⟩ :=
          ih key e.value (pushSucc s e ⟨rest, mr⟩) hinv1 hge1 hfuel1
        exact ⟨ha, hb, by omega⟩
      · rw [if_neg hk]
        refine ⟨hinv, ?_, le_refl _⟩
        have hpw := hinv.1
        simp only at hpw
        rw [List.pairwise_cons] at hpw
        have hlt : key < e.key :=
          lt_of_le_of_ne (hge e (List.mem_cons_self e rest)) (Ne.symm hk)
        intro x hx
        simp only at hx
        rcases List.mem_cons.mp hx with rfl | hx
        · exact hlt
        · exact lt_of_lt_of_le hlt (hpw.1 x hx)

theorem iterLoopF_sorted (s : MergeMap K V) (hs : sortedState s) :
    ∀ (fuel : Nat) (st : IterSt K V) (b : Option K),
    iterInv s st →
    (∀ x ∈ st.heap, obelow b x.key) →
    pot s st < fuel →
    List.Chain' (· < ·) ((iterLoopF s fuel st).map Prod.fst) ∧
    ∀ p ∈ iterLoopF s fuel st, obelow b p.1 := by
  intro fuel
  induction fuel with
  | zero =>
    intro st b _ _ _
    simp [iterLoopF]
  | succ fuel ih =>
    intro st b hinv hb hfuel
    obtain ⟨heap, mr⟩ := st
    cases heap with
    | nil =>
      simp [iterLoopF]
    | cons e rest =>
      simp only [iterLoopF]
      obtain ⟨hinv1, hbd1⟩ := iterInv_pushSucc s hs e rest mr hinv
      have hpot1 := pot_pushSucc s e rest mr
      have hfuel1 : pot s (pushSucc s e ⟨rest, mr⟩) < fuel := by omega
      obtain ⟨hinv2, hstrict2, hple2⟩ :=
        drainEqF_spec s hs fuel e.key e.value (pushSucc s e ⟨rest, mr⟩)
          hinv1 hbd1 hfuel1
      have hfuel2 :
          pot s (drainEqF s fuel e.key e.value (pushSucc s e ⟨rest, mr⟩)).2
            < fuel := by omega
      have hb2 : ∀ x ∈
          (drainEqF s fuel e.key e.value (pushSucc s e ⟨rest, mr⟩)).2.heap,
          obelow (some e.key) x.key := by
        intro x hx
        exact hstrict2 x hx
      obtain ⟨htail, hbtail⟩ :=
        ih (drainEqF s fuel e.key e.value (pushSucc s e ⟨rest, mr⟩)).2
          (some e.key) hinv2 hb2 hfuel2
      have hbe : obelow b e.key := hb e (List.mem_cons_self e rest)
      cases hd1 : (drainEqF s fuel e.key e.value (pushSucc s e ⟨rest, mr⟩)).1 with
      | none =>
        simp only []
        refine ⟨htail, ?_⟩
        intro p hp
        exact obelow_trans b e.key p.1 hbe (hbtail p hp)
      | some v =>
        simp only []
        constructor
        · rw [List.map_cons]
          rw [List.chain'_cons']
          refine ⟨?_, htail⟩
          intro y hy
          obtain ⟨q, hq, hqy⟩ := List.mem_map.mp (List.mem_of_mem_head? hy)
          exact hqy ▸ hbtail q hq
        · intro p hp
          rcases List.mem_cons.mp hp with rfl | hp
          · exact hbe
          · exact obelow_trans b e.key p.1 hbe (hbtail p hp)

theorem iterInv_heapPush_run (s : MergeMap K V) (heap : List (Elt K V))
    (mr : List (K × Option V)) (k : K) (v : Option V) (t0 i : Nat)
    (hinv : iterInv s ⟨heap, mr⟩)
    (hre : runEntry s t0 i = some (k, v)) :
    iterInv s ⟨heapPush heap ⟨k, v, some t0, i⟩, mr⟩ := by
  obtain ⟨hpw, hrun, hmem, hcnt⟩ := hinv
  simp only at hpw hrun hmem hcnt
  refine ⟨?_, ?_, ?_, ?_⟩
  · exact pairwise_heapPush heap _ hpw
  · intro x hx t hxt
    rcases (mem_heapPush heap _ x).mp hx with hx | rfl
    · exact hrun x hx t hxt
    · simp only at hxt
      cases hxt
      exact hre
  · intro x hx hxt
    rcases (mem_heapPush heap _ x).mp hx with hx | rfl
    · exact hmem x hx hxt
    · exact absurd hxt (by simp)
  · show (heapPush heap ⟨k, v, some t0, i⟩).countP
      (fun e => e.table.isNone) ≤ 1
    rw [countP_heapPush]
    rw [if_neg (by simp)]
    omega

theorem seedRuns_inv (s : MergeMap K V) (rr : Nat) (root : RootVal)
    (hrr : s.rootRef = some rr) (hroot : readRootRec s.file rr = some root) :
    ∀ (nrs : List Nat) (index : Nat) (heap : List (Elt K V))
      (mr : List (K × Option V)),
    (∀ j, nrs.get? j = root.nodes.get? (index + j)) →
    iterInv s ⟨heap, mr⟩ →
    iterInv s ⟨seedRuns s nrs index heap, mr⟩ := by
  intro nrs
  induction nrs with
  | nil =>
    intro index heap mr _ hinv
    simpa [seedRuns] using hinv
  | cons nr rest ih =>
    intro index heap mr hpre hinv
    have hpre1 : ∀ j, rest.get? j = root.nodes.get? (index + 1 + j) := by
      intro j
      have h := hpre (j + 1)
      rw [List.get?_cons_succ] at h
      rw [h]
      congr 1
      omega
    have h0 : root.nodes.get? index = some nr := by
      have h := hpre 0
      simpa using h.symm
    simp only [seedRuns]
    cases hn : readNode s.file nr with
    | none => exact ih (index + 1) heap mr hpre1 hinv
    | some values =>
      simp only []
      cases hv : values.head? with
      | none => exact ih (index + 1) heap mr hpre1 hinv
      | some vr =>
        simp only []
        cases hk : readKV s.file vr with
        | none => exact ih (index + 1) heap mr hpre1 hinv
        | some kv =>
          obtain ⟨k, v⟩ := kv
          have hre : runEntry s index 0 = some (k, v) := by
            have h0g : root.nodes[index]? = some nr := by
              rw [← List.get?_eq_getElem?]
              exact h0
            have hvg : values[0]? = some vr := by
              rw [← List.head?_eq_getElem? values]
              exact hv
            simp [runEntry, runValues, hrr, hroot, h0g, hn, hvg, hk]
          exact ih (index + 1) _ mr hpre1
            (iterInv_heapPush_run s heap mr k v index 0 hinv hre)

theorem iterInv_base_nil (s : MergeMap K V) :
    iterInv s ⟨([] : List (Elt K V)), ([] : List (K × Option V))⟩ := by
  refine ⟨List.Pairwise.nil, ?_, ?_, ?_⟩ <;> simp

theorem iterInv_base_mem (s : MergeMap K V) (k : K) (v : Option V)
    (rest : List (K × Option V))
    (hchain : List.Chain' (fun a b => a.1 < b.1) ((k, v) :: rest)) :
    iterInv s ⟨[⟨k, v, none, 0⟩], rest⟩ := by
  refine ⟨?_, ?_, ?_, ?_⟩
  · exact List.pairwise_singleton _ _
  · intro x hx t hxt
    rcases List.mem_singleton.mp hx with rfl
    exact absurd hxt (by simp)
  · intro x hx hxt
    rcases List.mem_singleton.mp hx with rfl
    show List.Chain' (· < ·)
      ((⟨k, v, none, 0⟩ : Elt K V).key :: rest.map Prod.fst)
    have h := (List.chain'_map (Prod.fst : K × Option V → K)).mpr hchain
    simpa using h
  · show ([⟨k, v, none, 0⟩] : List (Elt K V)).countP
      (fun e => e.table.isNone) ≤ 1
    rw [List.countP_cons]
    simp

theorem iterInv_iterInit (s : MergeMap K V) (hs : sortedState s) :
    iterInv s (iterInit s) := by
  unfold iterInit
  cases hmt : s.memTable with
  | nil =>
    simp only []
    cases hrr : s.rootRef with
    | none => exact iterInv_base_nil s
    | some rr =>
      simp only []
      cases hrd : readRootRec s.file rr with
      | none => exact iterInv_base_nil s
      | some root =>
        exact seedRuns_inv s rr root hrr hrd root.nodes 0 [] []
          (by simp) (iterInv_base_nil s)
  | cons hd tl =>
    obtain ⟨k, v⟩ := hd
    have hchain : List.Chain' (fun a b => a.1 < b.1) ((k, v) :: tl) := by
      have h := hs.1
      rwa [hmt] at h
    simp only []
    cases hrr : s.rootRef with
    | none => exact iterInv_base_mem s k v tl hchain
    | some rr =>
      simp only []
      cases hrd : readRootRec s.file rr with
      | none => exact iterInv_base_mem s k v tl hchain
      | some root =>
        exact seedRuns_inv s rr root hrr hrd root.nodes 0 _ tl
          (by simp) (iterInv_base_mem s k v tl hchain)

/-- **C10.** For every `MergeMap` state satisfying the LSM data model
(strictly ascending memtable keys and strictly ascending keys within every
on-disk run), the `values()` iterator yields exactly the same sequence of
items as the `keys()` iterator; both yield the keys of the merged
traversal in strictly ascending order, and `values()` yields those keys —
never the mapped values (its `next` maps `|(k, _)| k`, exactly as
`Keys::next` does, `src/lsm.rs` lines 159–185). -/
theorem c10_values_iterator_equals_keys (s : MergeMap K V)
    (hs : sortedState s) :
    valuesList s = keysList s ∧
    valuesList s = (iterList s).map Prod.fst ∧
    List.Chain' (· < ·) (keysList s) := by
  refine ⟨rfl, rfl, ?_⟩
  have hinv := iterInv_iterInit s hs
  have h := iterLoopF_sorted s hs (pot s (iterInit s) + 1) (iterInit s) none
    hinv (by intro x hx; exact trivial) (by omega)
  exact h.1

/-- Witness for C10: evaluation at a concrete sorted state — a committed
run with keys 1 and 3 and a memtable entry 2 — where the merged traversal
is `[(1, 10), (2, 20), (3, 30)]` and both iterators yield `[1, 2, 3]`. -/
theorem c10_values_iterator_equals_keys_witness :
    sortedState c10WitnessMap ∧
    iterList c10WitnessMap = [(1, 10), (2, 20), (3, 30)] ∧
    (valuesList c10WitnessMap = keysList c10WitnessMap ∧
     valuesList c10WitnessMap = (iterList c10WitnessMap).map Prod.fst ∧
     List.Chain' (· < ·) (keysList c10WitnessMap)) :=
  ⟨⟨List.chain'_singleton (2, some 20), by decide⟩, by rfl,
    c10_values_iterator_equals_keys c10WitnessMap
      ⟨List.chain'_singleton (2, some 20), by decide⟩⟩

end IterProofs

end LSM
